import Mathlib

/-!
# Verification of the unionfs resolution engine (src/union.ts)

Shallow embedding of the `Union` class: the ordered-fallback dispatchers
(`syncMethod`, `asyncMethod`, `promiseMethod`), the open resolver
(`open`, `openSync`), the directory merger (`readdir`, `readdirSync`,
`readdirPromise`) and the stream factory (`createReadStream`,
`createWriteStream`).

Modelling conventions:
* A backend's single call outcome is `Except String α` (the thrown error
  message, or the returned value).  The wrapper built by `createFS` is not
  modelled separately: capability-denied and method-missing stubs simply
  show up as failing behaviours.
* Errors are `ChainedError`: a message plus the `prev` back-reference the
  dispatchers attach (`err.prev = lastError`).
* The union-level outcome is `UResult`: a success value, a chained error,
  the distinguished empty-registry error (`No file systems attached`), or
  `undef` for the code paths that return / resolve with `undefined` or
  invoke the callback with no error and no value.
* Each dispatcher also returns the list of ids of the backends whose
  method was actually invoked, in invocation order (a ghost trace).
* Registration order: index 0 of the list is the first-registered
  (lowest-priority) backend; the dispatchers walk the list from the end,
  mirroring `for (let i = this.fss.length - 1; i >= 0; i--)`.
-/

deriving instance DecidableEq for Except

namespace UnionFS

/-- An `IUnionFsError`: a message together with the optional `prev`
back-reference.  `leaf m` is an error whose `prev` is `null`. -/
inductive ChainedError where
  | leaf (msg : String)
  | cons (msg : String) (prev : ChainedError)
deriving DecidableEq, Repr

/-- The messages along the `prev` chain, starting with the surfaced error. -/
def ChainedError.msgs : ChainedError → List String
  | .leaf m => [m]
  | .cons m p => m :: p.msgs

/-- Length of the `prev` chain. -/
def ChainedError.chainLength (e : ChainedError) : Nat := e.msgs.length

/-- `err.prev = lastError` for a freshly thrown error `m`. -/
def chainWith (m : String) : Option ChainedError → ChainedError
  | none => .leaf m
  | some p => .cons m p

/-- Build the chained error whose `msgs` is `m :: rest`. -/
def chainOfMsgs : String → List String → ChainedError
  | m, [] => .leaf m
  | m, m2 :: rest => .cons m (chainOfMsgs m2 rest)

/-- Outcome of one union-level call. -/
inductive UResult (α : Type) where
  | ok (v : α)
  | err (e : ChainedError)
  | noBackends
  | undef
deriving DecidableEq, Repr

/-- One attached backend for a generic single-target method: a ghost id
plus the outcome of calling the method on it. -/
structure Backend (α : Type) where
  id : Nat
  beh : Except String α
deriving DecidableEq, Repr

/-- `true` iff the behaviour is a thrown error. -/
def isErr {α : Type} : Except String α → Bool
  | .error _ => true
  | .ok _ => false

/-- The thrown message, if any. -/
def errMsg {α : Type} : Except String α → Option String
  | .error m => some m
  | .ok _ => none

/-- Loop body of `Union.syncMethod`, walking the backends in visit order
(last-registered first).  `rest.isEmpty` is the `if (!i)` check: the last
visited entry is the first-registered one, and a failure there is thrown. -/
def syncGo {α : Type} : List (Backend α) → Option ChainedError → UResult α × List Nat
  | [], _ => (.undef, [])
  | b :: rest, last =>
    match b.beh with
    | .ok v => (.ok v, [b.id])
    | .error m =>
      let e := chainWith m last
      if rest.isEmpty then (.err e, [b.id])
      else
        let r := syncGo rest (some e)
        (r.1, b.id :: r.2)

/-- `Union.syncMethod`: guard `if (!this.fss.length) throw new Error('No
file systems attached')`, then the fallback loop. -/
def syncMethod {α : Type} (fss : List (Backend α)) : UResult α × List Nat :=
  if fss.isEmpty then (.noBackends, [])
  else syncGo fss.reverse none

/-- `iterate` of `Union.asyncMethod`.  `cur` is the error handed to this
`iterate` call (if any); it is chained into `lastError` on entry, and the
terminal call (`i >= this.fss.length`) reports it to the callback. -/
def asyncGo {α : Type} : List (Backend α) → Option ChainedError → Option String → UResult α × List Nat
  | [], last, cur =>
    match cur with
    | some m => (.err (chainWith m last), [])
    | none => (.undef, [])
  | b :: rest, last, cur =>
    let last' := match cur with
      | some m => some (chainWith m last)
      | none => last
    match b.beh with
    | .ok v => (.ok v, [b.id])
    | .error m =>
      let r := asyncGo rest last' (some m)
      (r.1, b.id :: r.2)

/-- `Union.asyncMethod`: the terminal call runs
`cb(err ?? (!this.fss.length ? new Error('No file systems attached.') : undefined))`;
with no backends the callback gets the empty-registry error at once. -/
def asyncMethod {α : Type} (fss : List (Backend α)) : UResult α × List Nat :=
  if fss.isEmpty then (.noBackends, [])
  else asyncGo fss.reverse none none

/-- Loop body of `Union.promiseMethod`: same shape as `syncGo`. -/
def promiseGo {α : Type} : List (Backend α) → Option ChainedError → UResult α × List Nat
  | [], _ => (.undef, [])
  | b :: rest, last =>
    match b.beh with
    | .ok v => (.ok v, [b.id])
    | .error m =>
      let e := chainWith m last
      if rest.isEmpty then (.err e, [b.id])
      else
        let r := promiseGo rest (some e)
        (r.1, b.id :: r.2)

/-- `Union.promiseMethod`: it has no empty-registry guard, so with zero
backends the `for` loop body never runs and the promise resolves with
`undefined`. -/
def promiseMethod {α : Type} (fss : List (Backend α)) : UResult α × List Nat :=
  promiseGo fss.reverse none

/-- The `VolOptions` of one registered backend.  The TS fields are
optional; the code only ever tests `=== false`, so `true` stands for
"not explicitly disabled". -/
structure VolOptions where
  readable : Bool := true
  writable : Bool := true
deriving DecidableEq, Repr

/-- A backend as seen by `open` / `openSync`: ghost id, the outcome of
`fs.open`/`fs.openSync`, and the registration options. -/
structure OpenBackend (α : Type) where
  id : Nat
  beh : Except String α
  opts : VolOptions
deriving DecidableEq, Repr

/-- Character equality by code point (`Char.val` is injective). -/
def charEqB (a b : Char) : Bool := a.val.toNat == b.val.toNat

/-- The first list starts the second, on character lists. -/
def listStartsWith : List Char → List Char → Bool
  | [], _ => true
  | _ :: _, [] => false
  | a :: as, b :: bs => charEqB a b && listStartsWith as bs

/-- `String.startsWith`, written structurally on the character lists so
that it evaluates inside the kernel. -/
def strStartsWith (s p : String) : Bool := listStartsWith p.data s.data

/-- Lexicographic code-point comparison of character lists — the order
used by the JS default `Array.prototype.sort` on strings. -/
def lexLe : List Char → List Char → Bool
  | [], _ => true
  | _ :: _, [] => false
  | a :: as, b :: bs =>
    if a.val.toNat < b.val.toNat then true
    else if b.val.toNat < a.val.toNat then false
    else lexLe as bs

/-- Lexicographic string comparison. -/
def strLe (a b : String) : Bool := lexLe a.data b.data

/-- The three access-mode gates of `Union.open` / `Union.openSync`:
`flags.startsWith('r') && readable === false`, etc. -/
def skipEntry (flags : String) (o : VolOptions) : Bool :=
  (strStartsWith flags "r" && o.readable == false) ||
  (strStartsWith flags "w" && o.writable == false) ||
  (strStartsWith flags "a" && (o.writable == false || o.readable == false))

/-- Loop body of `Union.openSync`, in visit order.  A skipped entry is a
plain `continue`; the `if (!i) throw` only fires when the last visited
entry is reached and actually fails, so a trailing run of skipped entries
makes the loop fall through and return `undefined`. -/
def openSyncGo {α : Type} (flags : String) : List (OpenBackend α) → Option ChainedError → UResult α × List Nat
  | [], _ => (.undef, [])
  | b :: rest, last =>
    if skipEntry flags b.opts then openSyncGo flags rest last
    else
      match b.beh with
      | .ok v => (.ok v, [b.id])
      | .error m =>
        let e := chainWith m last
        if rest.isEmpty then (.err e, [b.id])
        else
          let r := openSyncGo flags rest (some e)
          (r.1, b.id :: r.2)

/-- `Union.openSync`.  There is no empty-registry guard: with zero
backends the loop never runs and `undefined` is returned. -/
def openSync {α : Type} (fss : List (OpenBackend α)) (flags : String) : UResult α × List Nat :=
  openSyncGo flags fss.reverse none

/-- `iterate` of `Union.open`.  `cur` is the raw error message handed to
this call; it is chained into `lastError` on entry.  A skipped entry calls
`iterate(i + 1)` with no error, so the terminal call can see no error even
though `lastError` is set — those accumulated failures are then dropped
and the callback is invoked with `undefined`. -/
def openCbGo {α : Type} (flags : String) : List (OpenBackend α) → Option ChainedError → Option String → UResult α × List Nat
  | [], last, cur =>
    match cur with
    | some m => (.err (chainWith m last), [])
    | none => (.undef, [])
  | b :: rest, last, cur =>
    let last' := match cur with
      | some m => some (chainWith m last)
      | none => last
    if skipEntry flags b.opts then openCbGo flags rest last' none
    else
      match b.beh with
      | .ok v => (.ok v, [b.id])
      | .error m =>
        let r := openCbGo flags rest last' (some m)
        (r.1, b.id :: r.2)

/-- `Union.open` (callback form).  The terminal call runs
`cb(err ?? (!this.fss.length ? new Error('No file systems attached.') : undefined))`. -/
def openCb {α : Type} (fss : List (OpenBackend α)) (flags : String) : UResult α × List Nat :=
  if fss.isEmpty then (.noBackends, [])
  else openCbGo flags fss.reverse none none

/-- A directory entry: its name (the key computed by
`pathFromReaddirEntry`) plus a ghost tag distinguishing which backend
reported it. -/
structure DirEnt where
  name : String
  meta : Nat
deriving DecidableEq, Repr

/-- A backend as seen by the readdir family: the outcome of its
`readdir`/`readdirSync`/`promises.readdir` call, and its `readable` flag.
The method itself is assumed present (`!func` stubs are failing
behaviours for the sync and promise forms). -/
structure RdBackend where
  beh : Except String (List DirEnt)
  readable : Bool
deriving DecidableEq, Repr

/-- `result.set(this.pathFromReaddirEntry(res), res)` on a JS `Map`,
modelled as an association list with unique keys: overwrite in place if
the key exists (keys in a `Map` are unique), append otherwise. -/
def mapInsert : List (String × DirEnt) → DirEnt → List (String × DirEnt)
  | [], e => [(e.name, e)]
  | p :: m, e => if p.1 == e.name then (e.name, e) :: m else p :: mapInsert m e

/-- Insert every reported entry, in report order. -/
def mapInsertAll (m : List (String × DirEnt)) (es : List DirEnt) : List (String × DirEnt) :=
  es.foldl mapInsert m

/-- `Map.get`. -/
def mapLookup (m : List (String × DirEnt)) (n : String) : Option DirEnt :=
  (m.find? (fun p => p.1 == n)).map Prod.snd

/-- `Union.sortedArrayFromReaddirResult`: sort the keys
(`Array.from(readdirResult.keys()).sort()`), then read the values back
out of the map.  The JS engine's sort is modelled by insertion sort with
the same comparator; on the unique key list the two agree. -/
def sortedArrayFromReaddirResult (m : List (String × DirEnt)) : List DirEnt :=
  ((m.map Prod.fst).insertionSort (fun a b => strLe a b = true)).filterMap (mapLookup m)

/-- Loop body of `Union.readdirSync`, in visit order.  A non-readable
entry is a plain `continue`; a failure is chained and thrown only when the
map is still empty and this was the last visited entry. -/
def readdirSyncGo : List RdBackend → Option ChainedError → List (String × DirEnt) → UResult (List DirEnt)
  | [], _, result => .ok (sortedArrayFromReaddirResult result)
  | b :: rest, last, result =>
    if b.readable == false then readdirSyncGo rest last result
    else
      match b.beh with
      | .ok es => readdirSyncGo rest last (mapInsertAll result es)
      | .error m =>
        let e := chainWith m last
        if result.isEmpty && rest.isEmpty then .err e
        else readdirSyncGo rest (some e) result

/-- `Union.readdirSync`. -/
def readdirSync (fss : List RdBackend) : UResult (List DirEnt) :=
  readdirSyncGo fss.reverse none []

/-- Loop body of `Union.readdirPromise`; the algorithm is identical to
the sync one, only the per-backend call is awaited. -/
def readdirPromiseGo : List RdBackend → Option ChainedError → List (String × DirEnt) → UResult (List DirEnt)
  | [], _, result => .ok (sortedArrayFromReaddirResult result)
  | b :: rest, last, result =>
    if b.readable == false then readdirPromiseGo rest last result
    else
      match b.beh with
      | .ok es => readdirPromiseGo rest last (mapInsertAll result es)
      | .error m =>
        let e := chainWith m last
        if result.isEmpty && rest.isEmpty then .err e
        else readdirPromiseGo rest (some e) result

/-- `Union.promises.readdir` (`readdirPromise`). -/
def readdirPromise (fss : List RdBackend) : UResult (List DirEnt) :=
  readdirPromiseGo fss.reverse none []

/-- The apostrophe used in the vol message, kept out of string literals. -/
def tick : String := String.singleton (Char.ofNat 39)

/-- The message of `Error(\x7bbacktick\x7d...)` at union.ts:297, for visit
position `i`. -/
def readableDisabledMsg (i : Nat) : String :=
  "Readable disabled for vol " ++ tick ++ toString i ++ tick ++ ": readdir"

/-- The error argument handed to one `iterate` call of `Union.readdir`:
nothing, a freshly thrown (not yet chained) error message, or an
already-chained error object being passed along again by the success
path `iterate(i + 1, error)`. -/
inductive CbErrArg where
  | noErr
  | fresh (m : String)
  | again (e : ChainedError)
deriving DecidableEq, Repr

/-- Overwrite the `prev` field, keeping the message.  This is the value
reading of the JS mutation `err.prev = lastError` on an error object that
already carries a `prev`. -/
def ChainedError.setPrev : ChainedError → Option ChainedError → ChainedError
  | .leaf m, none => .leaf m
  | .leaf m, some p => .cons m p
  | .cons m _, none => .leaf m
  | .cons m _, some p => .cons m p

/-- The chaining prologue of `iterate`: returns the new `lastError` and
the (chained) error object this call now holds.  Caveat: when an
already-chained error is passed along again, the JS mutation
`error.prev = lastError` makes the object its own `prev` (a cycle);
this value-level model unrolls that cycle one step per pass.  None of the
theorems below inspect a chain that was surfaced after such a re-pass. -/
def cbChain (last : Option ChainedError) : CbErrArg → Option ChainedError × Option ChainedError
  | .noErr => (last, none)
  | .fresh m =>
    let e := chainWith m last
    (some e, some e)
  | .again e =>
    let e2 := e.setPrev last
    (some e2, some e2)

/-- Repackage the error object held by the current call for the next
`iterate(i + 1, error)`. -/
def toArg : Option ChainedError → CbErrArg
  | none => .noErr
  | some e => .again e

/-- `iterate` of `Union.readdir` (callback form), in visit order, with
`i` the visit position (used in the vol message).  The terminal call runs
`cb(error || Error('No file systems attached.'))` — it always reports an
error.  A non-readable entry injects a fresh `Readable disabled` error
into the chain regardless of the accumulated result; a backend failure is
recorded only while the result map is still empty. -/
def readdirCbGo : List RdBackend → Nat → Option ChainedError → CbErrArg → List (String × DirEnt) → UResult (List DirEnt)
  | [], _, last, cur, _result =>
    match (cbChain last cur).2 with
    | some e => .err e
    | none => .noBackends
  | b :: rest, i, last, cur, result =>
    let st := cbChain last cur
    if b.readable == false then
      readdirCbGo rest (i + 1) st.1 (.fresh (readableDisabledMsg i)) result
    else
      match b.beh with
      | .error m =>
        if result.isEmpty then
          readdirCbGo rest (i + 1) st.1 (.fresh m) result
        else if rest.isEmpty then .ok (sortedArrayFromReaddirResult result)
        else readdirCbGo rest (i + 1) st.1 (toArg st.2) result
      | .ok es =>
        let result' := mapInsertAll result es
        if rest.isEmpty then .ok (sortedArrayFromReaddirResult result')
        else readdirCbGo rest (i + 1) st.1 (toArg st.2) result'

/-- `Union.readdir` (callback form). -/
def readdirCb (fss : List RdBackend) : UResult (List DirEnt) :=
  readdirCbGo fss.reverse 0 none .noErr []

/-- A backend as seen by the stream factory: ghost id, capability flags,
whether `createReadStream`/`createWriteStream` exists, the result of the
optional `existsSync` check (`none` when the backend has no `existsSync`),
and the stream-creation outcome (`ok none` is a falsy stream object). -/
structure StreamBackend where
  id : Nat
  readable : Bool := true
  writable : Bool := true
  hasCreate : Bool := true
  existsCheck : Option Bool := none
  create : Except String (Option Nat)
deriving DecidableEq, Repr

/-- The body of one `createReadStream` loop iteration once the entry has
passed the `readable` gate: the method-exists check, the optional
`existsSync` check, the creation call, and the truthy-stream check, in
source order. -/
def rsStep (b : StreamBackend) : Except String Nat :=
  if b.hasCreate = false then .error "Method not supported: createReadStream"
  else
    match b.existsCheck with
    | some false => .error "file does not exists"
    | _ =>
      match b.create with
      | .error m => .error m
      | .ok none => .error "no valid stream"
      | .ok (some s) => .ok s

/-- `Union.createReadStream`.  Note: the loop is `for (const [fs, ...] of
this.fss)`, i.e. it visits backends in registration order — the
first-registered (lowest-priority) entry first.  `lastError` is simply
overwritten (no `prev` chaining), and `throw lastError` at the end throws
`null` when nothing was attempted. -/
def createReadStreamGo : List StreamBackend → Option String → Except (Option String) Nat × List Nat
  | [], last => (.error last, [])
  | b :: rest, last =>
    if b.readable == false then createReadStreamGo rest last
    else
      match rsStep b with
      | .ok s => (.ok s, [b.id])
      | .error m =>
        let r := createReadStreamGo rest (some m)
        (r.1, b.id :: r.2)

/-- `Union.createReadStream` entry point. -/
def createReadStream (fss : List StreamBackend) : Except (Option String) Nat × List Nat :=
  createReadStreamGo fss none

/-- `Union.createWriteStream`, also in registration order, with no
existence check.  The second component tracks the caller-supplied
`options` object's `fs` field, which the loop overwrites with each
delegated-to backend (`options.fs = fs`) just before calling its
`createWriteStream`; a backend lacking the method throws before the
assignment.  The third component is the ghost trace of writable entries
processed. -/
def createWriteStreamGo : List StreamBackend → Option String → Option Nat → Except (Option String) Nat × Option Nat × List Nat
  | [], last, optFs => (.error last, optFs, [])
  | b :: rest, last, optFs =>
    if b.writable == false then createWriteStreamGo rest last optFs
    else if b.hasCreate = false then
      let r := createWriteStreamGo rest (some "Method not supported: createWriteStream") optFs
      (r.1, r.2.1, b.id :: r.2.2)
    else
      match b.create with
      | .ok (some s) => (.ok s, some b.id, [b.id])
      | .ok none =>
        let r := createWriteStreamGo rest (some "no valid stream") (some b.id)
        (r.1, r.2.1, b.id :: r.2.2)
      | .error m =>
        let r := createWriteStreamGo rest (some m) (some b.id)
        (r.1, r.2.1, b.id :: r.2.2)

/-- `Union.createWriteStream` entry point, with `options.fs` initially
absent. -/
def createWriteStream (fss : List StreamBackend) : Except (Option String) Nat × Option Nat × List Nat :=
  createWriteStreamGo fss none none

/-- The backends `createWriteStream` delegates to (assigns to
`options.fs` and calls), in order: writable entries whose method exists,
stopping after the first one that returns a truthy stream. -/
def wsDelegated : List StreamBackend → List Nat
  | [] => []
  | b :: rest =>
    if b.writable == false then wsDelegated rest
    else if b.hasCreate = false then wsDelegated rest
    else
      match b.create with
      | .ok (some _) => [b.id]
      | _ => b.id :: wsDelegated rest

/-! ## Helper functions and lemmas -/

/-- The messages of an optional chain (`null` has none). -/
def optMsgs : Option ChainedError → List String
  | none => []
  | some e => e.msgs

/-- The `lastError` value after the chaining prologue of an `iterate`
call that received the raw error `cur`. -/
def accAfter (acc : Option ChainedError) : Option String → Option ChainedError
  | none => acc
  | some m => some (chainWith m acc)

/-- A backend that always fails with the given message. -/
def failB (p : Nat × String) : Backend Nat :=
  ⟨p.1, .error p.2⟩

theorem chainWith_msgs (m : String) (acc : Option ChainedError) :
    (chainWith m acc).msgs = m :: optMsgs acc := by
  cases acc <;> simp [chainWith, optMsgs, ChainedError.msgs]

theorem msgs_ne_nil (e : ChainedError) : e.msgs ≠ [] := by
  cases e <;> simp [ChainedError.msgs]

theorem chainOfMsgs_msgs : ∀ (m : String) (l : List String), (chainOfMsgs m l).msgs = m :: l := by
  intro m l
  induction l generalizing m with
  | nil => simp [chainOfMsgs, ChainedError.msgs]
  | cons m2 rest ih => simp [chainOfMsgs, ChainedError.msgs, ih]

theorem eq_chainOfMsgs :
    ∀ (e : ChainedError) (m : String) (l : List String), e.msgs = m :: l → e = chainOfMsgs m l := by
  intro e
  induction e with
  | leaf m' =>
    intro m l h
    simp [ChainedError.msgs] at h
    obtain ⟨rfl, rfl⟩ := h
    simp [chainOfMsgs]
  | cons m' p ih =>
    intro m l h
    simp [ChainedError.msgs] at h
    obtain ⟨rfl, hl⟩ := h
    cases hp : p.msgs with
    | nil => exact absurd hp (msgs_ne_nil p)
    | cons m2 rest =>
      subst hl
      rw [hp, chainOfMsgs, ih m2 rest hp]

/-! ## C1 -/

/-- C1: for every non-empty registry, if the most-recently-registered
(highest-priority) backend's method succeeds, all three generic
single-target dispatchers return exactly that backend's result, and the
trace shows no other backend was invoked. -/
theorem C1_highest_priority_short_circuits {α : Type} (rest : List (Backend α)) (i : Nat) (v : α) :
    syncMethod (rest ++ [⟨i, Except.ok v⟩]) = (UResult.ok v, [i]) ∧
    asyncMethod (rest ++ [⟨i, Except.ok v⟩]) = (UResult.ok v, [i]) ∧
    promiseMethod (rest ++ [⟨i, Except.ok v⟩]) = (UResult.ok v, [i]) := by
  refine ⟨?_, ?_, ?_⟩ <;>
    simp [syncMethod, asyncMethod, promiseMethod, syncGo, asyncGo, promiseGo]

/-! ## C2 -/

/-- C2 counterexample: with zero backends, a promise-form single-target
operation does not fail at all — `promiseMethod` has no guard, so the
promise resolves with `undefined`, not with the no-backends error. -/
theorem C2_counterexample_promise_empty :
    promiseMethod ([] : List (Backend Nat)) = (UResult.undef, []) ∧
    (UResult.undef : UResult Nat) ≠ UResult.noBackends := by
  refine ⟨rfl, ?_⟩
  intro h
  exact UResult.noConfusion h

/-- C2 (amended): with zero backends, the blocking and callback generic
dispatchers and the callback `open` fail with the distinguished
no-backends error, which is distinct from every chained attempt error;
the promise dispatcher resolves `undefined` and `openSync` returns
`undefined` instead of failing. -/
theorem C2_empty_registry_amended (α : Type) (flags : String) :
    syncMethod ([] : List (Backend α)) = (UResult.noBackends, []) ∧
    asyncMethod ([] : List (Backend α)) = (UResult.noBackends, []) ∧
    openCb ([] : List (OpenBackend α)) flags = (UResult.noBackends, []) ∧
    promiseMethod ([] : List (Backend α)) = (UResult.undef, []) ∧
    openSync ([] : List (OpenBackend α)) flags = (UResult.undef, []) ∧
    (∀ e : ChainedError, (UResult.noBackends : UResult α) ≠ UResult.err e) ∧
    (UResult.noBackends : UResult α) ≠ UResult.undef := by
  refine ⟨rfl, rfl, rfl, rfl, rfl, ?_, ?_⟩
  · intro e h
    exact UResult.noConfusion h
  · intro h
    exact UResult.noConfusion h

/-! ## C3 -/

theorem syncGo_cons_ok {α : Type} {b : Backend α} {rest : List (Backend α)}
    {acc : Option ChainedError} {v : α} (hbe : b.beh = Except.ok v) :
    syncGo (b :: rest) acc = (UResult.ok v, [b.id]) := by
  simp only [syncGo, hbe]

theorem syncGo_single_error {α : Type} {b : Backend α} {acc : Option ChainedError}
    {m : String} (hbe : b.beh = Except.error m) :
    syncGo [b] acc = (UResult.err (chainWith m acc), [b.id]) := by
  simp only [syncGo, hbe, List.isEmpty_nil, if_true]

theorem syncGo_cons_error {α : Type} {b : Backend α} {rest : List (Backend α)}
    {acc : Option ChainedError} {m : String} (hbe : b.beh = Except.error m) (hne : rest ≠ []) :
    syncGo (b :: rest) acc =
      ((syncGo rest (some (chainWith m acc))).1,
        b.id :: (syncGo rest (some (chainWith m acc))).2) := by
  simp only [syncGo, hbe]
  rw [if_neg]
  simp [hne]

theorem syncGo_fail_all :
    ∀ (L : List (Nat × String)) (acc : Option ChainedError), L ≠ [] →
      ∃ e, syncGo (L.map failB) acc = (UResult.err e, L.map Prod.fst) ∧
        e.msgs = (L.map Prod.snd).reverse ++ optMsgs acc := by
  intro L
  induction L with
  | nil => intro acc h; exact absurd rfl h
  | cons p ps ih =>
    intro acc _
    cases ps with
    | nil =>
      refine ⟨chainWith p.2 acc, ?_, ?_⟩
      · exact syncGo_single_error rfl
      · simp [chainWith_msgs]
    | cons q qs =>
      obtain ⟨e, he, hm⟩ := ih (some (chainWith p.2 acc)) (by simp)
      refine ⟨e, ?_, ?_⟩
      · rw [List.map_cons, syncGo_cons_error (rfl : (failB p).beh = Except.error p.2) (by simp), he]
        simp [failB]
      · rw [hm]
        simp [optMsgs, chainWith_msgs]

theorem openSyncGo_cons_skip {α : Type} {flags : String} {b : OpenBackend α}
    {rest : List (OpenBackend α)} {acc : Option ChainedError}
    (hb : skipEntry flags b.opts = true) :
    openSyncGo flags (b :: rest) acc = openSyncGo flags rest acc := by
  simp only [openSyncGo, hb, if_true]

theorem openSyncGo_cons_ok {α : Type} {flags : String} {b : OpenBackend α}
    {rest : List (OpenBackend α)} {acc : Option ChainedError} {v : α}
    (hb : skipEntry flags b.opts = false) (hbe : b.beh = Except.ok v) :
    openSyncGo flags (b :: rest) acc = (UResult.ok v, [b.id]) := by
  simp only [openSyncGo, hb, hbe, Bool.false_eq_true, if_false]

theorem openSyncGo_single_error {α : Type} {flags : String} {b : OpenBackend α}
    {acc : Option ChainedError} {m : String}
    (hb : skipEntry flags b.opts = false) (hbe : b.beh = Except.error m) :
    openSyncGo flags [b] acc = (UResult.err (chainWith m acc), [b.id]) := by
  simp only [openSyncGo, hb, hbe, Bool.false_eq_true, if_false, List.isEmpty_nil, if_true]

theorem openSyncGo_cons_error {α : Type} {flags : String} {b : OpenBackend α}
    {rest : List (OpenBackend α)} {acc : Option ChainedError} {m : String}
    (hb : skipEntry flags b.opts = false) (hbe : b.beh = Except.error m) (hne : rest ≠ []) :
    openSyncGo flags (b :: rest) acc =
      ((openSyncGo flags rest (some (chainWith m acc))).1,
        b.id :: (openSyncGo flags rest (some (chainWith m acc))).2) := by
  simp only [openSyncGo, hb, hbe, Bool.false_eq_true, if_false]
  rw [if_neg]
  simp [hne]

theorem openSyncGo_fail_all {flags : String} :
    ∀ (L : List (OpenBackend Nat)) (acc : Option ChainedError), L ≠ [] →
      (∀ b ∈ L, skipEntry flags b.opts = true ∨ isErr b.beh = true) →
      (∀ bl, L.getLast? = some bl → skipEntry flags bl.opts = false) →
      ∃ e, openSyncGo flags L acc =
          (UResult.err e, (L.filter fun b => !skipEntry flags b.opts).map OpenBackend.id) ∧
        e.msgs = ((L.filter fun b => !skipEntry flags b.opts).filterMap
            (fun b => errMsg b.beh)).reverse ++ optMsgs acc := by
  intro L
  induction L with
  | nil => intro acc h; exact absurd rfl h
  | cons b rest ih =>
    intro acc _ hfail hlast
    cases rest with
    | nil =>
      have hb : skipEntry flags b.opts = false := hlast b (by simp)
      have hberr : isErr b.beh = true := by
        rcases hfail b (by simp) with hsk | herr
        · rw [hb] at hsk
          exact absurd hsk (by simp)
        · exact herr
      cases hbe : b.beh with
      | ok v => rw [hbe] at hberr; simp [isErr] at hberr
      | error m =>
        refine ⟨chainWith m acc, ?_, ?_⟩
        · simp [openSyncGo, hb, hbe]
        · simp [hb, hbe, errMsg, chainWith_msgs]
    | cons c cs =>
      have hlast' : ∀ bl, (c :: cs).getLast? = some bl → skipEntry flags bl.opts = false := by
        intro bl hbl
        exact hlast bl (by rw [List.getLast?_cons_cons]; exact hbl)
      have hfail' : ∀ b2 ∈ c :: cs, skipEntry flags b2.opts = true ∨ isErr b2.beh = true :=
        fun b2 hb2 => hfail b2 (List.mem_cons_of_mem _ hb2)
      by_cases hb : skipEntry flags b.opts = true
      · have hfb : List.filter (fun x => !skipEntry flags x.opts) (b :: c :: cs) =
            List.filter (fun x => !skipEntry flags x.opts) (c :: cs) :=
          List.filter_cons_of_neg (by simp [hb])
        obtain ⟨e, he, hm⟩ := ih acc (by simp) hfail' hlast'
        refine ⟨e, ?_, ?_⟩
        · rw [openSyncGo_cons_skip hb, he, hfb]
        · rw [hm, hfb]
      · have hb' : skipEntry flags b.opts = false := by
          cases h2 : skipEntry flags b.opts
          · rfl
          · exact absurd h2 hb
        have hfb : List.filter (fun x => !skipEntry flags x.opts) (b :: c :: cs) =
            b :: List.filter (fun x => !skipEntry flags x.opts) (c :: cs) :=
          List.filter_cons_of_pos (by simp [hb'])
        have hberr : isErr b.beh = true := by
          rcases hfail b (by simp) with hsk | herr
          · rw [hb'] at hsk
            exact absurd hsk (by simp)
          · exact herr
        cases hbe : b.beh with
        | ok v => rw [hbe] at hberr; simp [isErr] at hberr
        | error m =>
          obtain ⟨e, he, hm⟩ := ih (some (chainWith m acc)) (by simp) hfail' hlast'
          refine ⟨e, ?_, ?_⟩
          · rw [openSyncGo_cons_error hb' hbe (by simp), he, hfb]
            rfl
          · rw [hm, hfb,
              @List.filterMap_cons_some _ _ (fun x => errMsg x.beh) b
                (List.filter (fun x => !skipEntry flags x.opts) (c :: cs)) m
                (by show errMsg b.beh = some m; rw [hbe]; simp [errMsg])]
            simp [optMsgs, chainWith_msgs]

theorem filterMap_errMsg_length {L : List (OpenBackend Nat)}
    (h : ∀ b ∈ L, isErr b.beh = true) :
    (L.filterMap fun b => errMsg b.beh).length = L.length := by
  induction L with
  | nil => rfl
  | cons b rest ih =>
    have hb : isErr b.beh = true := h b (by simp)
    cases hbe : b.beh with
    | ok v => rw [hbe] at hb; simp [isErr] at hb
    | error m =>
      rw [@List.filterMap_cons_some _ _ (fun x => errMsg x.beh) b rest m
        (by show errMsg b.beh = some m; rw [hbe]; simp [errMsg]),
        List.length_cons, List.length_cons,
        ih (fun b2 hb2 => h b2 (List.mem_cons_of_mem _ hb2))]

/-- C3 counterexample: with a failing eligible backend registered after a
backend that the access-mode filter skips, `open` surfaces no error at
all — the callback is invoked with `undefined` — although one eligible
backend was attempted and failed.  The claimed chain (length one) is
never delivered. -/
theorem C3_counterexample_open_swallows_errors :
    openCb ([⟨0, Except.error "e0", ⟨false, true⟩⟩, ⟨1, Except.error "e1", ⟨true, true⟩⟩] :
        List (OpenBackend Nat)) "r" = (UResult.undef, [1]) ∧
    (UResult.undef : UResult Nat) ≠ UResult.err (ChainedError.leaf "e1") := by
  refine ⟨by decide, ?_⟩
  intro h
  exact UResult.noConfusion h

/-! ## C4 -/

theorem openCbGo_cons_skip {α : Type} {flags : String} {b : OpenBackend α}
    {rest : List (OpenBackend α)} {acc : Option ChainedError} {cur : Option String}
    (hb : skipEntry flags b.opts = true) :
    openCbGo flags (b :: rest) acc cur = openCbGo flags rest (accAfter acc cur) none := by
  cases cur <;> simp only [openCbGo, accAfter, hb, if_true]

theorem openCbGo_cons_ok {α : Type} {flags : String} {b : OpenBackend α}
    {rest : List (OpenBackend α)} {acc : Option ChainedError} {cur : Option String} {v : α}
    (hb : skipEntry flags b.opts = false) (hbe : b.beh = Except.ok v) :
    openCbGo flags (b :: rest) acc cur = (UResult.ok v, [b.id]) := by
  cases cur <;> simp only [openCbGo, accAfter, hb, hbe, Bool.false_eq_true, if_false]

theorem openCbGo_cons_error {α : Type} {flags : String} {b : OpenBackend α}
    {rest : List (OpenBackend α)} {acc : Option ChainedError} {cur : Option String} {m : String}
    (hb : skipEntry flags b.opts = false) (hbe : b.beh = Except.error m) :
    openCbGo flags (b :: rest) acc cur =
      ((openCbGo flags rest (accAfter acc cur) (some m)).1,
        b.id :: (openCbGo flags rest (accAfter acc cur) (some m)).2) := by
  cases cur <;> simp only [openCbGo, accAfter, hb, hbe, Bool.false_eq_true, if_false]

theorem skip_of_mode_cases {flags : String} {o : VolOptions}
    (h : (strStartsWith flags "r" = true ∧ o.readable = false) ∨
      (strStartsWith flags "w" = true ∧ o.writable = false) ∨
      (strStartsWith flags "a" = true ∧ (o.readable = false ∨ o.writable = false))) :
    skipEntry flags o = true := by
  rcases h with ⟨hf, ho⟩ | ⟨hf, ho⟩ | ⟨hf, ho | ho⟩ <;> simp [skipEntry, hf, ho]

theorem openSyncGo_trace_sources {flags : String} :
    ∀ (L : List (OpenBackend Nat)) (acc : Option ChainedError) (i : Nat),
      i ∈ (openSyncGo flags L acc).2 →
      ∃ b ∈ L, b.id = i ∧ skipEntry flags b.opts = false := by
  intro L
  induction L with
  | nil => intro acc i hi; simp [openSyncGo] at hi
  | cons b rest ih =>
    intro acc i hi
    by_cases hb : skipEntry flags b.opts = true
    · rw [openSyncGo_cons_skip hb] at hi
      obtain ⟨b2, hb2, hid, hsk⟩ := ih acc i hi
      exact ⟨b2, List.mem_cons_of_mem _ hb2, hid, hsk⟩
    · have hb' : skipEntry flags b.opts = false := by
        cases h2 : skipEntry flags b.opts
        · rfl
        · exact absurd h2 hb
      cases hbe : b.beh with
      | ok v =>
        rw [openSyncGo_cons_ok hb' hbe] at hi
        simp at hi
        exact ⟨b, by simp, by rw [hi], hb'⟩
      | error m =>
        cases rest with
        | nil =>
          rw [openSyncGo_single_error hb' hbe] at hi
          simp at hi
          exact ⟨b, by simp, by rw [hi], hb'⟩
        | cons c cs =>
          rw [openSyncGo_cons_error hb' hbe (by simp)] at hi
          rcases List.mem_cons.mp hi with hi | hi
          · exact ⟨b, by simp, by rw [hi], hb'⟩
          · obtain ⟨b2, hb2, hid, hsk⟩ := ih (some (chainWith m acc)) i hi
            exact ⟨b2, List.mem_cons_of_mem _ hb2, hid, hsk⟩

theorem openCbGo_trace_sources {flags : String} :
    ∀ (L : List (OpenBackend Nat)) (acc : Option ChainedError) (cur : Option String) (i : Nat),
      i ∈ (openCbGo flags L acc cur).2 →
      ∃ b ∈ L, b.id = i ∧ skipEntry flags b.opts = false := by
  intro L
  induction L with
  | nil =>
    intro acc cur i hi
    cases cur <;> simp [openCbGo] at hi
  | cons b rest ih =>
    intro acc cur i hi
    by_cases hb : skipEntry flags b.opts = true
    · rw [openCbGo_cons_skip hb] at hi
      obtain ⟨b2, hb2, hid, hsk⟩ := ih _ none i hi
      exact ⟨b2, List.mem_cons_of_mem _ hb2, hid, hsk⟩
    · have hb' : skipEntry flags b.opts = false := by
        cases h2 : skipEntry flags b.opts
        · rfl
        · exact absurd h2 hb
      cases hbe : b.beh with
      | ok v =>
        rw [openCbGo_cons_ok hb' hbe] at hi
        simp at hi
        exact ⟨b, by simp, by rw [hi], hb'⟩
      | error m =>
        rw [openCbGo_cons_error hb' hbe] at hi
        rcases List.mem_cons.mp hi with hi | hi
        · exact ⟨b, by simp, by rw [hi], hb'⟩
        · obtain ⟨b2, hb2, hid, hsk⟩ := ih _ (some m) i hi
          exact ⟨b2, List.mem_cons_of_mem _ hb2, hid, hsk⟩

theorem openSyncGo_chain_sources {flags : String} :
    ∀ (L : List (OpenBackend Nat)) (acc : Option ChainedError) (e : ChainedError),
      (openSyncGo flags L acc).1 = UResult.err e →
      ∀ m ∈ e.msgs,
        (∃ b ∈ L, skipEntry flags b.opts = false ∧ errMsg b.beh = some m) ∨ m ∈ optMsgs acc := by
  intro L
  induction L with
  | nil => intro acc e he; simp [openSyncGo] at he
  | cons b rest ih =>
    intro acc e he m hm
    by_cases hb : skipEntry flags b.opts = true
    · rw [openSyncGo_cons_skip hb] at he
      rcases ih acc e he m hm with ⟨b2, hb2, hsk, hmsg⟩ | hacc
      · exact Or.inl ⟨b2, List.mem_cons_of_mem _ hb2, hsk, hmsg⟩
      · exact Or.inr hacc
    · have hb' : skipEntry flags b.opts = false := by
        cases h2 : skipEntry flags b.opts
        · rfl
        · exact absurd h2 hb
      cases hbe : b.beh with
      | ok v => rw [openSyncGo_cons_ok hb' hbe] at he; exact absurd he (by simp)
      | error m' =>
        cases rest with
        | nil =>
          rw [openSyncGo_single_error hb' hbe] at he
          simp at he
          rw [← he, chainWith_msgs] at hm
          rcases List.mem_cons.mp hm with rfl | hm
          · exact Or.inl ⟨b, by simp, hb', by rw [hbe]; rfl⟩
          · exact Or.inr hm
        | cons c cs =>
          rw [openSyncGo_cons_error hb' hbe (by simp)] at he
          rcases ih (some (chainWith m' acc)) e he m hm with ⟨b2, hb2, hsk, hmsg⟩ | hacc
          · exact Or.inl ⟨b2, List.mem_cons_of_mem _ hb2, hsk, hmsg⟩
          · rw [optMsgs, chainWith_msgs] at hacc
            rcases List.mem_cons.mp hacc with rfl | hacc
            · exact Or.inl ⟨b, by simp, hb', by rw [hbe]; rfl⟩
            · exact Or.inr hacc

theorem openCbGo_chain_sources {flags : String} :
    ∀ (L : List (OpenBackend Nat)) (acc : Option ChainedError) (cur : Option String)
      (e : ChainedError),
      (openCbGo flags L acc cur).1 = UResult.err e →
      ∀ m ∈ e.msgs,
        (∃ b ∈ L, skipEntry flags b.opts = false ∧ errMsg b.beh = some m) ∨
          m ∈ optMsgs acc ∨ cur = some m := by
  intro L
  induction L with
  | nil =>
    intro acc cur e he m hm
    cases cur with
    | none => simp [openCbGo] at he
    | some m' =>
      simp [openCbGo] at he
      rw [← he, chainWith_msgs] at hm
      rcases List.mem_cons.mp hm with rfl | hm
      · exact Or.inr (Or.inr rfl)
      · exact Or.inr (Or.inl hm)
  | cons b rest ih =>
    intro acc cur e he m hm
    have haccAfter : ∀ m2, m2 ∈ optMsgs (accAfter acc cur) →
        m2 ∈ optMsgs acc ∨ cur = some m2 := by
      intro m2 hm2
      cases cur with
      | none => exact Or.inl hm2
      | some mc =>
        rw [accAfter, optMsgs, chainWith_msgs] at hm2
        rcases List.mem_cons.mp hm2 with rfl | hm2
        · exact Or.inr rfl
        · exact Or.inl hm2
    by_cases hb : skipEntry flags b.opts = true
    · rw [openCbGo_cons_skip hb] at he
      rcases ih _ none e he m hm with ⟨b2, hb2, hsk, hmsg⟩ | hacc | hcur
      · exact Or.inl ⟨b2, List.mem_cons_of_mem _ hb2, hsk, hmsg⟩
      · exact Or.inr (haccAfter m hacc)
      · exact absurd hcur (by simp)
    · have hb' : skipEntry flags b.opts = false := by
        cases h2 : skipEntry flags b.opts
        · rfl
        · exact absurd h2 hb
      cases hbe : b.beh with
      | ok v => rw [openCbGo_cons_ok hb' hbe] at he; exact absurd he (by simp)
      | error m' =>
        rw [openCbGo_cons_error hb' hbe] at he
        rcases ih _ (some m') e he m hm with ⟨b2, hb2, hsk, hmsg⟩ | hacc | hcur
        · exact Or.inl ⟨b2, List.mem_cons_of_mem _ hb2, hsk, hmsg⟩
        · exact Or.inr (haccAfter m hacc)
        · have : m' = m := by injection hcur
          exact Or.inl ⟨b, by simp, hb', by rw [hbe, ← this]; rfl⟩

theorem openCb_ne_nil {α : Type} {fss : List (OpenBackend α)} (h : fss ≠ []) (flags : String) :
    openCb fss flags = openCbGo flags fss.reverse none none := by
  rw [openCb]
  have : fss.isEmpty = false := by simp [h]
  rw [this]
  simp

/-- C4: for every `open`/`openSync` call, an entry disabled for the
requested mode — `readable === false` under an `r` mode, `writable ===
false` under a `w` mode, either flag `false` under an `a` mode — is never
invoked (its id is absent from the trace, given distinct ids), and every
node of a surfaced error chain comes from an entry that passed the
filter. -/
theorem C4_access_mode_filtering (fss : List (OpenBackend Nat)) (flags : String)
    (b : OpenBackend Nat) (hmem : b ∈ fss)
    (hmode : (strStartsWith flags "r" = true ∧ b.opts.readable = false) ∨
      (strStartsWith flags "w" = true ∧ b.opts.writable = false) ∨
      (strStartsWith flags "a" = true ∧ (b.opts.readable = false ∨ b.opts.writable = false))) :
    ((fss.map OpenBackend.id).Nodup →
      b.id ∉ (openSync fss flags).2 ∧ b.id ∉ (openCb fss flags).2) ∧
    (∀ e, (openSync fss flags).1 = UResult.err e →
      ∀ m ∈ e.msgs, ∃ b2 ∈ fss, skipEntry flags b2.opts = false ∧ errMsg b2.beh = some m) ∧
    (∀ e, (openCb fss flags).1 = UResult.err e →
      ∀ m ∈ e.msgs, ∃ b2 ∈ fss, skipEntry flags b2.opts = false ∧ errMsg b2.beh = some m) := by
  have hskip : skipEntry flags b.opts = true := skip_of_mode_cases hmode
  have hnonnil : fss ≠ [] := by
    intro h
    rw [h] at hmem
    exact absurd hmem (by simp)
  refine ⟨?_, ?_, ?_⟩
  · intro hnodup
    constructor
    · intro hi
      obtain ⟨b2, hb2, hid, hsk⟩ := openSyncGo_trace_sources fss.reverse none b.id hi
      have : b2 = b := List.inj_on_of_nodup_map hnodup (List.mem_reverse.mp hb2) hmem hid
      rw [this] at hsk
      rw [hsk] at hskip
      exact Bool.noConfusion hskip
    · rw [openCb_ne_nil hnonnil] at *
      intro hi
      obtain ⟨b2, hb2, hid, hsk⟩ := openCbGo_trace_sources fss.reverse none none b.id hi
      have : b2 = b := List.inj_on_of_nodup_map hnodup (List.mem_reverse.mp hb2) hmem hid
      rw [this] at hsk
      rw [hsk] at hskip
      exact Bool.noConfusion hskip
  · intro e he m hm
    rcases openSyncGo_chain_sources fss.reverse none e he m hm with ⟨b2, hb2, hsk, hmsg⟩ | hacc
    · exact ⟨b2, List.mem_reverse.mp hb2, hsk, hmsg⟩
    · exact absurd hacc (by simp [optMsgs])
  · rw [openCb_ne_nil hnonnil]
    intro e he m hm
    rcases openCbGo_chain_sources fss.reverse none none e he m hm with
      ⟨b2, hb2, hsk, hmsg⟩ | hacc | hcur
    · exact ⟨b2, List.mem_reverse.mp hb2, hsk, hmsg⟩
    · exact absurd hacc (by simp [optMsgs])
    · exact absurd hcur (by simp)

/-- C4 witness: a registry with a non-readable and a readable entry under
mode `r` — the non-readable entry's id never appears in either trace. -/
theorem C4_witness :
    (0 ∉ (openSync ([⟨0, Except.error "x", ⟨false, true⟩⟩, ⟨1, Except.error "y", ⟨true, true⟩⟩] :
        List (OpenBackend Nat)) "r").2) ∧
    (0 ∉ (openCb ([⟨0, Except.error "x", ⟨false, true⟩⟩, ⟨1, Except.error "y", ⟨true, true⟩⟩] :
        List (OpenBackend Nat)) "r").2) :=
  (C4_access_mode_filtering
    [⟨0, Except.error "x", ⟨false, true⟩⟩, ⟨1, Except.error "y", ⟨true, true⟩⟩] "r"
    ⟨0, Except.error "x", ⟨false, true⟩⟩ (by decide) (by decide)).1 (by decide)

/-! ## C5 -/

theorem openSyncGo_ne_noBackends {flags : String} :
    ∀ (L : List (OpenBackend Nat)) (acc : Option ChainedError),
      (openSyncGo flags L acc).1 ≠ UResult.noBackends := by
  intro L
  induction L with
  | nil => intro acc h; simp [openSyncGo] at h
  | cons b rest ih =>
    intro acc h
    by_cases hb : skipEntry flags b.opts = true
    · rw [openSyncGo_cons_skip hb] at h
      exact ih acc h
    · have hb' : skipEntry flags b.opts = false := by
        cases h2 : skipEntry flags b.opts
        · rfl
        · exact absurd h2 hb
      cases hbe : b.beh with
      | ok v => rw [openSyncGo_cons_ok hb' hbe] at h; exact UResult.noConfusion h
      | error m =>
        cases rest with
        | nil =>
          rw [openSyncGo_single_error hb' hbe] at h
          exact UResult.noConfusion h
        | cons c cs =>
          rw [openSyncGo_cons_error hb' hbe (by simp)] at h
          exact ih (some (chainWith m acc)) h

theorem openCbGo_ne_noBackends {flags : String} :
    ∀ (L : List (OpenBackend Nat)) (acc : Option ChainedError) (cur : Option String),
      L ≠ [] → (openCbGo flags L acc cur).1 ≠ UResult.noBackends := by
  intro L
  induction L with
  | nil => intro acc cur h; exact absurd rfl h
  | cons b rest ih =>
    intro acc cur _ h
    by_cases hb : skipEntry flags b.opts = true
    · rw [openCbGo_cons_skip hb] at h
      cases rest with
      | nil => simp [openCbGo] at h
      | cons c cs => exact ih _ none (by simp) h
    · have hb' : skipEntry flags b.opts = false := by
        cases h2 : skipEntry flags b.opts
        · rfl
        · exact absurd h2 hb
      cases hbe : b.beh with
      | ok v => rw [openCbGo_cons_ok hb' hbe] at h; exact UResult.noConfusion h
      | error m =>
        rw [openCbGo_cons_error hb' hbe] at h
        cases rest with
        | nil => simp [openCbGo] at h
        | cons c cs => exact ih _ (some m) (by simp) h

theorem openSyncGo_all_skip {flags : String} :
    ∀ (L : List (OpenBackend Nat)) (acc : Option ChainedError),
      (∀ b ∈ L, skipEntry flags b.opts = true) →
      openSyncGo flags L acc = (UResult.undef, []) := by
  intro L
  induction L with
  | nil => intro acc _; rfl
  | cons b rest ih =>
    intro acc hall
    rw [openSyncGo_cons_skip (hall b (by simp))]
    exact ih acc (fun b2 hb2 => hall b2 (List.mem_cons_of_mem _ hb2))

theorem openCbGo_all_skip {flags : String} :
    ∀ (L : List (OpenBackend Nat)) (acc : Option ChainedError),
      (∀ b ∈ L, skipEntry flags b.opts = true) →
      openCbGo flags L acc none = (UResult.undef, []) := by
  intro L
  induction L with
  | nil => intro acc _; rfl
  | cons b rest ih =>
    intro acc hall
    rw [openCbGo_cons_skip (hall b (by simp))]
    exact ih _ (fun b2 hb2 => hall b2 (List.mem_cons_of_mem _ hb2))

/-- C5 counterexample: a non-empty registry whose only entry is filtered
out under mode `r` — `openSync` returns `undefined` and `open` invokes
its callback with `undefined`: the call does not fail at all, so it does
not fail with a plain operation-failed error either. -/
theorem C5_counterexample_all_filtered_undefined :
    openSync ([⟨0, Except.ok 7, ⟨false, true⟩⟩] : List (OpenBackend Nat)) "r" =
      (UResult.undef, []) ∧
    openCb ([⟨0, Except.ok 7, ⟨false, true⟩⟩] : List (OpenBackend Nat)) "r" =
      (UResult.undef, []) ∧
    (UResult.undef : UResult Nat) ≠ UResult.err (ChainedError.leaf "x") := by
  refine ⟨by decide, by decide, ?_⟩
  intro h
  exact UResult.noConfusion h

/-- C5 (amended): when the access-mode filter skips every entry of a
non-empty registry, `openSync` returns `undefined` and `open` calls back
with `undefined` — no error of any kind; and the no-backends error is
never produced for a non-empty registry (nor by `openSync` at all). -/
theorem C5_no_backends_reserved_amended (fss : List (OpenBackend Nat)) (flags : String) :
    ((∀ b ∈ fss, skipEntry flags b.opts = true) →
      openSync fss flags = (UResult.undef, []) ∧
      (fss ≠ [] → openCb fss flags = (UResult.undef, []))) ∧
    (openSync fss flags).1 ≠ UResult.noBackends ∧
    (fss ≠ [] → (openCb fss flags).1 ≠ UResult.noBackends) := by
  refine ⟨?_, ?_, ?_⟩
  · intro hall
    constructor
    · rw [openSync]
      exact openSyncGo_all_skip fss.reverse none
        (fun b hb => hall b (List.mem_reverse.mp hb))
    · intro hne
      rw [openCb_ne_nil hne]
      exact openCbGo_all_skip fss.reverse none
        (fun b hb => hall b (List.mem_reverse.mp hb))
  · exact openSyncGo_ne_noBackends fss.reverse none
  · intro hne
    rw [openCb_ne_nil hne]
    exact openCbGo_ne_noBackends fss.reverse none none (by simp [hne])

/-- C5 witness: the amended theorem applied to a concrete all-filtered
registry. -/
theorem C5_witness :
    openSync ([⟨0, Except.ok 7, ⟨false, true⟩⟩, ⟨1, Except.error "y", ⟨false, true⟩⟩] :
      List (OpenBackend Nat)) "r" = (UResult.undef, []) :=
  ((C5_no_backends_reserved_amended
    [⟨0, Except.ok 7, ⟨false, true⟩⟩, ⟨1, Except.error "y", ⟨false, true⟩⟩] "r").1
    (by decide)).1

/-! ## Readdir support: merge semantics -/

/-- The last entry named `n` in one backend's reported list — the one
that survives insertion into the map, since later `set` calls overwrite
earlier ones. -/
def lastNamed (n : String) (es : List DirEnt) : Option DirEnt :=
  (es.filter (fun e => e.name == n)).getLast?

/-- The entry named `n` that one backend contributes to the merge, if
any: it must be readable, succeed, and report the name. -/
def reportOf (b : RdBackend) (n : String) : Option DirEnt :=
  if b.readable == false then none
  else
    match b.beh with
    | .ok es => lastNamed n es
    | .error _ => none

/-- The entry for `n` reported by the FIRST backend (in the given order)
that reports it. -/
def firstReport : List RdBackend → String → Option DirEnt
  | [], _ => none
  | b :: rest, n => (reportOf b n).or (firstReport rest n)

/-- The entry for `n` reported by the LAST backend (in the given order)
that reports it. -/
def lastReport : List RdBackend → String → Option DirEnt
  | [], _ => none
  | b :: rest, n => (lastReport rest n).or (reportOf b n)

/-- The map accumulated by one pass of the readdir loop over the visit
list: readable, successful backends insert their entries in order. -/
def rdAccum : List RdBackend → List (String × DirEnt) → List (String × DirEnt)
  | [], m => m
  | b :: rest, m =>
    if b.readable == false then rdAccum rest m
    else
      match b.beh with
      | .ok es => rdAccum rest (mapInsertAll m es)
      | .error _ => rdAccum rest m

/-- `true` iff the behaviour is a success with an empty listing. -/
def okEmpty (x : Except String (List DirEnt)) : Bool :=
  match x with
  | .ok [] => true
  | _ => false

/-! ### The string order used by the key sort -/

theorem lexLe_total : ∀ (a b : List Char), lexLe a b = true ∨ lexLe b a = true := by
  intro a
  induction a with
  | nil => intro b; exact Or.inl rfl
  | cons x xs ih =>
    intro b
    cases b with
    | nil => exact Or.inr rfl
    | cons y ys =>
      by_cases h1 : x.val.toNat < y.val.toNat
      · left; simp [lexLe, h1]
      · by_cases h2 : y.val.toNat < x.val.toNat
        · right; simp [lexLe, h2]
        · rcases ih ys with h | h
          · left; simp [lexLe, h1, h2, h]
          · right; simp [lexLe, h1, h2, h]

theorem lexLe_trans :
    ∀ (a b c : List Char), lexLe a b = true → lexLe b c = true → lexLe a c = true := by
  intro a
  induction a with
  | nil => intro b c _ _; rfl
  | cons x xs ih =>
    intro b c hab hbc
    cases b with
    | nil => simp [lexLe] at hab
    | cons y ys =>
      cases c with
      | nil => simp [lexLe] at hbc
      | cons z zs =>
        by_cases hxy : x.val.toNat < y.val.toNat
        · by_cases hyz : y.val.toNat < z.val.toNat
          · have hxz : x.val.toNat < z.val.toNat := Nat.lt_trans hxy hyz
            simp [lexLe, hxz]
          · by_cases hzy : z.val.toNat < y.val.toNat
            · simp [lexLe, hyz, hzy] at hbc
            · have hxz : x.val.toNat < z.val.toNat := by omega
              simp [lexLe, hxz]
        · by_cases hyx : y.val.toNat < x.val.toNat
          · simp [lexLe, hxy, hyx] at hab
          · have hab2 : lexLe xs ys = true := by
              simp [lexLe, hxy, hyx] at hab
              exact hab
            by_cases hyz : y.val.toNat < z.val.toNat
            · have hxz : x.val.toNat < z.val.toNat := by omega
              simp [lexLe, hxz]
            · by_cases hzy : z.val.toNat < y.val.toNat
              · simp [lexLe, hyz, hzy] at hbc
              · have hbc2 : lexLe ys zs = true := by
                  simp [lexLe, hyz, hzy] at hbc
                  exact hbc
                have hxz : ¬ x.val.toNat < z.val.toNat := by omega
                have hzx : ¬ z.val.toNat < x.val.toNat := by omega
                simp [lexLe, hxz, hzx, ih ys zs hab2 hbc2]

theorem strLe_total (a b : String) : strLe a b = true ∨ strLe b a = true :=
  lexLe_total a.data b.data

theorem strLe_trans (a b c : String) :
    strLe a b = true → strLe b c = true → strLe a c = true :=
  lexLe_trans a.data b.data c.data

instance : IsTotal String (fun a b => strLe a b = true) :=
  ⟨strLe_total⟩

instance : IsTrans String (fun a b => strLe a b = true) :=
  ⟨strLe_trans⟩

/-! ### Map lemmas -/

theorem getLast?_cons_or {α : Type} (a : α) (l : List α) :
    (a :: l).getLast? = l.getLast?.or (some a) := by
  cases l with
  | nil => rfl
  | cons c l2 =>
    rw [List.getLast?_cons_cons]
    cases h : (c :: l2).getLast? with
    | none => exact absurd h (by simp [List.getLast?_isSome])
    | some x => rfl

theorem mapLookup_cons (p : String × DirEnt) (m : List (String × DirEnt)) (n : String) :
    mapLookup (p :: m) n = if (p.1 == n) = true then some p.2 else mapLookup m n := by
  by_cases h : (p.1 == n) = true
  · rw [mapLookup, List.find?_cons_of_pos _ (by exact h), if_pos h]
    rfl
  · rw [mapLookup, List.find?_cons_of_neg _ (by exact h), if_neg h]
    rfl

theorem mapLookup_mapInsert (m : List (String × DirEnt)) (e : DirEnt) (n : String) :
    mapLookup (mapInsert m e) n = if (e.name == n) = true then some e else mapLookup m n := by
  induction m with
  | nil =>
    rw [mapInsert, mapLookup_cons]
  | cons p m2 ih =>
    rw [mapInsert]
    by_cases hp : (p.1 == e.name) = true
    · rw [if_pos hp, mapLookup_cons]
      have hpe : p.1 = e.name := eq_of_beq hp
      by_cases hn : (e.name == n) = true
      · rw [if_pos hn, if_pos hn]
      · rw [if_neg hn, if_neg hn, mapLookup_cons, if_neg (by rw [hpe]; exact hn)]
    · rw [if_neg hp, mapLookup_cons]
      by_cases hn2 : (p.1 == n) = true
      · have hne : ¬ (e.name == n) = true := by
          intro hbeq
          have h1 : p.1 = n := eq_of_beq hn2
          have h2 : e.name = n := eq_of_beq hbeq
          exact hp (by rw [h1, h2]; simp)
        rw [if_pos hn2, if_neg hne, mapLookup_cons, if_pos hn2]
      · rw [if_neg hn2, ih]
        by_cases hn : (e.name == n) = true
        · rw [if_pos hn, if_pos hn]
        · rw [if_neg hn, if_neg hn, mapLookup_cons, if_neg hn2]

theorem mapLookup_mapInsertAll (es : List DirEnt) :
    ∀ (m : List (String × DirEnt)) (n : String),
      mapLookup (mapInsertAll m es) n = (lastNamed n es).or (mapLookup m n) := by
  induction es with
  | nil =>
    intro m n
    rw [show mapInsertAll m [] = m from rfl, lastNamed]
    simp
  | cons e es2 ih =>
    intro m n
    rw [show mapInsertAll m (e :: es2) = mapInsertAll (mapInsert m e) es2 from rfl, ih,
      mapLookup_mapInsert]
    have hl : lastNamed n (e :: es2) =
        (lastNamed n es2).or (if (e.name == n) = true then some e else none) := by
      rw [lastNamed, lastNamed]
      by_cases h : (e.name == n) = true
      · rw [List.filter_cons_of_pos (by exact h), if_pos h, getLast?_cons_or]
      · rw [List.filter_cons_of_neg (by exact h), if_neg h, Option.or_none]
    rw [hl]
    by_cases h : (e.name == n) = true
    · rw [if_pos h, if_pos h, Option.or_assoc, Option.or_some]
    · rw [if_neg h, if_neg h, Option.or_none]

theorem mapInsert_ne_nil (m : List (String × DirEnt)) (e : DirEnt) : mapInsert m e ≠ [] := by
  cases m with
  | nil => simp [mapInsert]
  | cons p m2 =>
    rw [mapInsert]
    by_cases hp : (p.1 == e.name) = true
    · rw [if_pos hp]; simp
    · rw [if_neg hp]; simp

theorem mapInsertAll_eq_nil {es : List DirEnt} :
    ∀ {m : List (String × DirEnt)}, mapInsertAll m es = [] → m = [] ∧ es = [] := by
  induction es with
  | nil => intro m h; exact ⟨h, rfl⟩
  | cons e es2 ih =>
    intro m h
    rw [show mapInsertAll m (e :: es2) = mapInsertAll (mapInsert m e) es2 from rfl] at h
    obtain ⟨h1, _⟩ := ih h
    exact absurd h1 (mapInsert_ne_nil m e)

theorem mem_keys_mapInsert (m : List (String × DirEnt)) (e : DirEnt) (k : String) :
    k ∈ (mapInsert m e).map Prod.fst ↔ k ∈ m.map Prod.fst ∨ k = e.name := by
  induction m with
  | nil => simp [mapInsert]
  | cons p m2 ih =>
    rw [mapInsert]
    by_cases hp : (p.1 == e.name) = true
    · have hpe : p.1 = e.name := eq_of_beq hp
      rw [if_pos hp]
      simp [hpe]
      tauto
    · rw [if_neg hp]
      simp at ih ⊢
      rw [ih]
      tauto

theorem keys_nodup_mapInsert {m : List (String × DirEnt)} (e : DirEnt)
    (h : (m.map Prod.fst).Nodup) : ((mapInsert m e).map Prod.fst).Nodup := by
  induction m with
  | nil => simp [mapInsert]
  | cons p m2 ih =>
    rw [List.map_cons, List.nodup_cons] at h
    rw [mapInsert]
    by_cases hp : (p.1 == e.name) = true
    · have hpe : p.1 = e.name := eq_of_beq hp
      rw [if_pos hp, List.map_cons, List.nodup_cons]
      exact ⟨by rw [← hpe]; exact h.1, h.2⟩
    · rw [if_neg hp, List.map_cons, List.nodup_cons]
      constructor
      · intro hmem
        rcases (mem_keys_mapInsert m2 e p.1).mp hmem with hmem | heq
        · exact h.1 hmem
        · exact hp (by rw [heq]; simp)
      · exact ih h.2

theorem keys_nodup_mapInsertAll {es : List DirEnt} :
    ∀ {m : List (String × DirEnt)}, (m.map Prod.fst).Nodup →
      ((mapInsertAll m es).map Prod.fst).Nodup := by
  induction es with
  | nil => intro m h; exact h
  | cons e es2 ih =>
    intro m h
    rw [show mapInsertAll m (e :: es2) = mapInsertAll (mapInsert m e) es2 from rfl]
    exact ih (keys_nodup_mapInsert e h)

/-- Every value in the map is stored under its own name. -/
def namesOk (m : List (String × DirEnt)) : Prop :=
  ∀ p ∈ m, p.2.name = p.1

theorem namesOk_mapInsert {m : List (String × DirEnt)} (e : DirEnt) (h : namesOk m) :
    namesOk (mapInsert m e) := by
  induction m with
  | nil =>
    intro q hq
    rw [mapInsert] at hq
    simp at hq
    rw [hq]
  | cons p m2 ih =>
    intro q hq
    rw [mapInsert] at hq
    by_cases hp : (p.1 == e.name) = true
    · rw [if_pos hp] at hq
      rcases List.mem_cons.mp hq with rfl | hq
      · rfl
      · exact h q (List.mem_cons_of_mem _ hq)
    · rw [if_neg hp] at hq
      rcases List.mem_cons.mp hq with rfl | hq
      · exact h q (by simp)
      · exact ih (fun r hr => h r (List.mem_cons_of_mem _ hr)) q hq

theorem namesOk_mapInsertAll {es : List DirEnt} :
    ∀ {m : List (String × DirEnt)}, namesOk m → namesOk (mapInsertAll m es) := by
  induction es with
  | nil => intro m h; exact h
  | cons e es2 ih =>
    intro m h
    rw [show mapInsertAll m (e :: es2) = mapInsertAll (mapInsert m e) es2 from rfl]
    exact ih (namesOk_mapInsert e h)

theorem mapLookup_eq_some_elim {m : List (String × DirEnt)} {n : String} {e : DirEnt}
    (h : mapLookup m n = some e) : ∃ p ∈ m, p.1 = n ∧ p.2 = e := by
  rw [mapLookup, Option.map_eq_some'] at h
  obtain ⟨p, hp, hpe⟩ := h
  have hbeq := @List.find?_some (String × DirEnt) (fun q => q.1 == n) p m hp
  exact ⟨p, List.mem_of_find?_eq_some hp, eq_of_beq hbeq, hpe⟩

theorem mapLookup_of_mem_nodup :
    ∀ {m : List (String × DirEnt)} {n : String} {e : DirEnt},
      (m.map Prod.fst).Nodup → (n, e) ∈ m → mapLookup m n = some e := by
  intro m
  induction m with
  | nil => intro n e _ hmem; simp at hmem
  | cons p m2 ih =>
    intro n e hnd hmem
    rw [List.map_cons, List.nodup_cons] at hnd
    rw [mapLookup_cons]
    rcases List.mem_cons.mp hmem with heq | hmem2
    · rw [← heq]
      simp
    · have hn : n ∈ m2.map Prod.fst := List.mem_map.mpr ⟨(n, e), hmem2, rfl⟩
      have hp1 : ¬ (p.1 == n) = true := by
        intro hbeq
        rw [eq_of_beq hbeq] at hnd
        exact hnd.1 hn
      rw [if_neg hp1]
      exact ih hnd.2 hmem2

/-! ### Accumulated map and report lemmas -/

theorem reportOf_skip {b : RdBackend} (hr : b.readable = false) (n : String) :
    reportOf b n = none := by
  simp [reportOf, hr]

theorem reportOf_ok {b : RdBackend} {es : List DirEnt} (hr : b.readable = true)
    (hbe : b.beh = Except.ok es) (n : String) : reportOf b n = lastNamed n es := by
  simp [reportOf, hr, hbe]

theorem reportOf_err {b : RdBackend} {m : String} (hr : b.readable = true)
    (hbe : b.beh = Except.error m) (n : String) : reportOf b n = none := by
  simp [reportOf, hr, hbe]

theorem rdAccum_cons_skip {b : RdBackend} {rest : List RdBackend}
    {m : List (String × DirEnt)} (hr : b.readable = false) :
    rdAccum (b :: rest) m = rdAccum rest m := by
  simp [rdAccum, hr]

theorem rdAccum_cons_ok {b : RdBackend} {rest : List RdBackend}
    {m : List (String × DirEnt)} {es : List DirEnt}
    (hr : b.readable = true) (hbe : b.beh = Except.ok es) :
    rdAccum (b :: rest) m = rdAccum rest (mapInsertAll m es) := by
  simp [rdAccum, hr, hbe]

theorem rdAccum_cons_err {b : RdBackend} {rest : List RdBackend}
    {m : List (String × DirEnt)} {m2 : String}
    (hr : b.readable = true) (hbe : b.beh = Except.error m2) :
    rdAccum (b :: rest) m = rdAccum rest m := by
  simp [rdAccum, hr, hbe]

theorem mapLookup_rdAccum :
    ∀ (L : List RdBackend) (m : List (String × DirEnt)) (n : String),
      mapLookup (rdAccum L m) n = (lastReport L n).or (mapLookup m n) := by
  intro L
  induction L with
  | nil =>
    intro m n
    rw [show rdAccum [] m = m from rfl, show lastReport [] n = none from rfl, Option.none_or]
  | cons b rest ih =>
    intro m n
    rw [show lastReport (b :: rest) n = (lastReport rest n).or (reportOf b n) from rfl]
    by_cases hr : b.readable = false
    · rw [rdAccum_cons_skip hr, ih, reportOf_skip hr, Option.or_none]
    · have hr2 : b.readable = true := by
        cases h2 : b.readable
        · exact absurd h2 hr
        · rfl
      cases hbe : b.beh with
      | ok es =>
        rw [rdAccum_cons_ok hr2 hbe, ih, mapLookup_mapInsertAll, reportOf_ok hr2 hbe,
          Option.or_assoc]
      | error m2 =>
        rw [rdAccum_cons_err hr2 hbe, ih, reportOf_err hr2 hbe, Option.or_none]

theorem firstReport_append :
    ∀ (A B : List RdBackend) (n : String),
      firstReport (A ++ B) n = (firstReport A n).or (firstReport B n) := by
  intro A
  induction A with
  | nil => intro B n; rw [List.nil_append, show firstReport [] n = none from rfl, Option.none_or]
  | cons b A2 ih =>
    intro B n
    rw [List.cons_append, show firstReport (b :: (A2 ++ B)) n =
        (reportOf b n).or (firstReport (A2 ++ B) n) from rfl, ih,
      show firstReport (b :: A2) n = (reportOf b n).or (firstReport A2 n) from rfl,
      Option.or_assoc]

theorem firstReport_reverse :
    ∀ (L : List RdBackend) (n : String), firstReport L.reverse n = lastReport L n := by
  intro L
  induction L with
  | nil => intro n; rfl
  | cons b rest ih =>
    intro n
    rw [List.reverse_cons, firstReport_append, ih,
      show firstReport [b] n = (reportOf b n).or (firstReport [] n) from rfl,
      show firstReport ([] : List RdBackend) n = none from rfl, Option.or_none]
    rfl

theorem keys_nodup_rdAccum :
    ∀ (L : List RdBackend) (m : List (String × DirEnt)),
      (m.map Prod.fst).Nodup → ((rdAccum L m).map Prod.fst).Nodup := by
  intro L
  induction L with
  | nil => intro m h; exact h
  | cons b rest ih =>
    intro m h
    by_cases hr : b.readable = false
    · rw [rdAccum_cons_skip hr]; exact ih m h
    · have hr2 : b.readable = true := by
        cases h2 : b.readable
        · exact absurd h2 hr
        · rfl
      cases hbe : b.beh with
      | ok es => rw [rdAccum_cons_ok hr2 hbe]; exact ih _ (keys_nodup_mapInsertAll h)
      | error m2 => rw [rdAccum_cons_err hr2 hbe]; exact ih m h

theorem namesOk_rdAccum :
    ∀ (L : List RdBackend) (m : List (String × DirEnt)),
      namesOk m → namesOk (rdAccum L m) := by
  intro L
  induction L with
  | nil => intro m h; exact h
  | cons b rest ih =>
    intro m h
    by_cases hr : b.readable = false
    · rw [rdAccum_cons_skip hr]; exact ih m h
    · have hr2 : b.readable = true := by
        cases h2 : b.readable
        · exact absurd h2 hr
        · rfl
      cases hbe : b.beh with
      | ok es => rw [rdAccum_cons_ok hr2 hbe]; exact ih _ (namesOk_mapInsertAll h)
      | error m2 => rw [rdAccum_cons_err hr2 hbe]; exact ih m h

/-! ### The sorted composite array -/

theorem mem_sortedArray {m : List (String × DirEnt)} {e : DirEnt} :
    e ∈ sortedArrayFromReaddirResult m ↔ ∃ k, mapLookup m k = some e := by
  rw [sortedArrayFromReaddirResult, List.mem_filterMap]
  constructor
  · rintro ⟨k, _, hl⟩
    exact ⟨k, hl⟩
  · rintro ⟨k, hl⟩
    refine ⟨k, ?_, hl⟩
    obtain ⟨p, hp, h1, _⟩ := mapLookup_eq_some_elim hl
    exact (List.Perm.mem_iff (List.perm_insertionSort _ _)).mpr
      (List.mem_map.mpr ⟨p, hp, h1⟩)

theorem pairwise_filterMap_of {R : String → String → Prop} {S : DirEnt → DirEnt → Prop}
    (f : String → Option DirEnt)
    (hRS : ∀ a b x y, R a b → f a = some x → f b = some y → S x y) :
    ∀ {ks : List String}, ks.Pairwise R → (ks.filterMap f).Pairwise S := by
  intro ks hp
  induction hp with
  | nil => simp
  | @cons a l h _ ih =>
    cases hfa : f a with
    | none => rw [List.filterMap_cons_none hfa]; exact ih
    | some x =>
      rw [List.filterMap_cons_some hfa]
      refine List.Pairwise.cons ?_ ih
      intro y hy
      obtain ⟨b, hb, hfb⟩ := List.mem_filterMap.mp hy
      exact hRS a b x y (h b hb) hfa hfb

/-! ### readdirSync loop lemmas -/

theorem readdirSyncGo_cons_skip {b : RdBackend} {rest : List RdBackend}
    {acc : Option ChainedError} {result : List (String × DirEnt)}
    (hr : b.readable = false) :
    readdirSyncGo (b :: rest) acc result = readdirSyncGo rest acc result := by
  simp [readdirSyncGo, hr]

theorem readdirSyncGo_cons_ok {b : RdBackend} {rest : List RdBackend}
    {acc : Option ChainedError} {result : List (String × DirEnt)} {es : List DirEnt}
    (hr : b.readable = true) (hbe : b.beh = Except.ok es) :
    readdirSyncGo (b :: rest) acc result = readdirSyncGo rest acc (mapInsertAll result es) := by
  simp [readdirSyncGo, hr, hbe]

theorem readdirSyncGo_cons_err_throw {b : RdBackend} {rest : List RdBackend}
    {acc : Option ChainedError} {result : List (String × DirEnt)} {m : String}
    (hr : b.readable = true) (hbe : b.beh = Except.error m)
    (hcond : (result.isEmpty && rest.isEmpty) = true) :
    readdirSyncGo (b :: rest) acc result = UResult.err (chainWith m acc) := by
  simp [readdirSyncGo, hr, hbe, hcond]

theorem readdirSyncGo_cons_err_cont {b : RdBackend} {rest : List RdBackend}
    {acc : Option ChainedError} {result : List (String × DirEnt)} {m : String}
    (hr : b.readable = true) (hbe : b.beh = Except.error m)
    (hcond : (result.isEmpty && rest.isEmpty) = false) :
    readdirSyncGo (b :: rest) acc result =
      readdirSyncGo rest (some (chainWith m acc)) result := by
  simp [readdirSyncGo, hr, hbe, hcond]

theorem readdirSyncGo_ok :
    ∀ (L : List RdBackend) (acc : Option ChainedError) (result : List (String × DirEnt))
      (l : List DirEnt),
      readdirSyncGo L acc result = UResult.ok l →
      l = sortedArrayFromReaddirResult (rdAccum L result) := by
  intro L
  induction L with
  | nil =>
    intro acc result l h
    rw [show readdirSyncGo [] acc result =
      UResult.ok (sortedArrayFromReaddirResult result) from rfl] at h
    injection h with h
    rw [← h]
    rfl
  | cons b rest ih =>
    intro acc result l h
    by_cases hr : b.readable = false
    · rw [readdirSyncGo_cons_skip hr] at h
      rw [rdAccum_cons_skip hr]
      exact ih acc result l h
    · have hr2 : b.readable = true := by
        cases h2 : b.readable
        · exact absurd h2 hr
        · rfl
      cases hbe : b.beh with
      | ok es =>
        rw [readdirSyncGo_cons_ok hr2 hbe] at h
        rw [rdAccum_cons_ok hr2 hbe]
        exact ih acc _ l h
      | error m =>
        cases hcond : (result.isEmpty && rest.isEmpty) with
        | true =>
          rw [readdirSyncGo_cons_err_throw hr2 hbe hcond] at h
          exact absurd h (by simp)
        | false =>
          rw [readdirSyncGo_cons_err_cont hr2 hbe hcond] at h
          rw [rdAccum_cons_err hr2 hbe]
          exact ih _ result l h

theorem readdirSyncGo_shape :
    ∀ (L : List RdBackend) (acc : Option ChainedError) (result : List (String × DirEnt)),
      (∃ l, readdirSyncGo L acc result = UResult.ok l) ∨
      (∃ e, readdirSyncGo L acc result = UResult.err e) := by
  intro L
  induction L with
  | nil => intro acc result; exact Or.inl ⟨_, rfl⟩
  | cons b rest ih =>
    intro acc result
    by_cases hr : b.readable = false
    · rw [readdirSyncGo_cons_skip hr]; exact ih acc result
    · have hr2 : b.readable = true := by
        cases h2 : b.readable
        · exact absurd h2 hr
        · rfl
      cases hbe : b.beh with
      | ok es => rw [readdirSyncGo_cons_ok hr2 hbe]; exact ih acc _
      | error m =>
        cases hcond : (result.isEmpty && rest.isEmpty) with
        | true =>
          rw [readdirSyncGo_cons_err_throw hr2 hbe hcond]
          exact Or.inr ⟨_, rfl⟩
        | false =>
          rw [readdirSyncGo_cons_err_cont hr2 hbe hcond]
          exact ih _ result

theorem readdirSyncGo_err_no_contribution :
    ∀ (L : List RdBackend) (acc : Option ChainedError) (result : List (String × DirEnt))
      (e : ChainedError),
      readdirSyncGo L acc result = UResult.err e →
      result = [] ∧
      (∀ b ∈ L, b.readable = true → ∀ es, b.beh = Except.ok es → es = []) := by
  intro L
  induction L with
  | nil =>
    intro acc result e h
    exact absurd h (by simp [readdirSyncGo])
  | cons b rest ih =>
    intro acc result e h
    by_cases hr : b.readable = false
    · rw [readdirSyncGo_cons_skip hr] at h
      obtain ⟨hres, hrest⟩ := ih acc result e h
      refine ⟨hres, ?_⟩
      intro b2 hb2 hb2r es hbe
      rcases List.mem_cons.mp hb2 with rfl | hb2
      · rw [hb2r] at hr
        exact absurd hr (by simp)
      · exact hrest b2 hb2 hb2r es hbe
    · have hr2 : b.readable = true := by
        cases h2 : b.readable
        · exact absurd h2 hr
        · rfl
      cases hbe : b.beh with
      | ok es =>
        rw [readdirSyncGo_cons_ok hr2 hbe] at h
        obtain ⟨hres, hrest⟩ := ih acc _ e h
        obtain ⟨hm, hes⟩ := mapInsertAll_eq_nil hres
        refine ⟨hm, ?_⟩
        intro b2 hb2 hb2r es2 hbe2
        rcases List.mem_cons.mp hb2 with rfl | hb2
        · rw [hbe] at hbe2
          injection hbe2 with hbe2
          rw [← hbe2]
          exact hes
        · exact hrest b2 hb2 hb2r es2 hbe2
      | error m =>
        cases hcond : (result.isEmpty && rest.isEmpty) with
        | true =>
          rw [Bool.and_eq_true] at hcond
          have hres : result = [] := by
            rw [← List.isEmpty_iff]
            exact hcond.1
          have hrest : rest = [] := by
            rw [← List.isEmpty_iff]
            exact hcond.2
          refine ⟨hres, ?_⟩
          intro b2 hb2 _ es2 hbe2
          rw [hrest] at hb2
          rcases List.mem_cons.mp hb2 with rfl | hb2
          · rw [hbe] at hbe2
            exact Except.noConfusion hbe2
          · exact absurd hb2 (by simp)
        | false =>
          rw [readdirSyncGo_cons_err_cont hr2 hbe hcond] at h
          obtain ⟨hres, hrest⟩ := ih _ result e h
          refine ⟨hres, ?_⟩
          intro b2 hb2 hb2r es2 hbe2
          rcases List.mem_cons.mp hb2 with rfl | hb2
          · rw [hbe] at hbe2
            exact Except.noConfusion hbe2
          · exact hrest b2 hb2 hb2r es2 hbe2

theorem readdirPromiseGo_eq_syncGo :
    ∀ (L : List RdBackend) (acc : Option ChainedError) (result : List (String × DirEnt)),
      readdirPromiseGo L acc result = readdirSyncGo L acc result := by
  intro L
  induction L with
  | nil => intro acc result; rfl
  | cons b rest ih =>
    intro acc result
    by_cases hr : b.readable = false
    · rw [show readdirPromiseGo (b :: rest) acc result =
          readdirPromiseGo rest acc result by simp [readdirPromiseGo, hr],
        readdirSyncGo_cons_skip hr]
      exact ih acc result
    · have hr2 : b.readable = true := by
        cases h2 : b.readable
        · exact absurd h2 hr
        · rfl
      cases hbe : b.beh with
      | ok es =>
        rw [show readdirPromiseGo (b :: rest) acc result =
            readdirPromiseGo rest acc (mapInsertAll result es) by
              simp [readdirPromiseGo, hr2, hbe],
          readdirSyncGo_cons_ok hr2 hbe]
        exact ih acc _
      | error m =>
        cases hcond : (result.isEmpty && rest.isEmpty) with
        | true =>
          rw [show readdirPromiseGo (b :: rest) acc result =
              UResult.err (chainWith m acc) by simp [readdirPromiseGo, hr2, hbe, hcond],
            readdirSyncGo_cons_err_throw hr2 hbe hcond]
        | false =>
          rw [show readdirPromiseGo (b :: rest) acc result =
              readdirPromiseGo rest (some (chainWith m acc)) result by
                simp [readdirPromiseGo, hr2, hbe, hcond],
            readdirSyncGo_cons_err_cont hr2 hbe hcond]
          exact ih _ result

/-! ### readdir callback loop lemmas -/

theorem readdirCbGo_nil_noErr {i : Nat} {acc : Option ChainedError}
    {result : List (String × DirEnt)} :
    readdirCbGo [] i acc CbErrArg.noErr result = UResult.noBackends := rfl

theorem readdirCbGo_cons_skip {b : RdBackend} {rest : List RdBackend} {i : Nat}
    {acc : Option ChainedError} {cur : CbErrArg} {result : List (String × DirEnt)}
    (hr : b.readable = false) :
    readdirCbGo (b :: rest) i acc cur result =
      readdirCbGo rest (i + 1) (cbChain acc cur).1 (.fresh (readableDisabledMsg i)) result := by
  simp [readdirCbGo, hr]

theorem asyncGo_cons_ok {α : Type} {b : Backend α} {rest : List (Backend α)}
    {acc : Option ChainedError} {cur : Option String} {v : α}
    (hbe : b.beh = Except.ok v) :
    asyncGo (b :: rest) acc cur = (UResult.ok v, [b.id]) := by
  cases cur <;> simp [asyncGo, hbe]

theorem asyncGo_cons_error {α : Type} {b : Backend α} {rest : List (Backend α)}
    {acc : Option ChainedError} {cur : Option String} {m : String}
    (hbe : b.beh = Except.error m) :
    asyncGo (b :: rest) acc cur =
      ((asyncGo rest (accAfter acc cur) (some m)).1,
        b.id :: (asyncGo rest (accAfter acc cur) (some m)).2) := by
  cases cur <;> simp [asyncGo, accAfter, hbe]

theorem asyncGo_eq_syncGo {α : Type} :
    ∀ (L : List (Backend α)) (acc : Option ChainedError) (cur : Option String),
      L ≠ [] → asyncGo L acc cur = syncGo L (accAfter acc cur) := by
  intro L
  induction L with
  | nil => intro acc cur h; exact absurd rfl h
  | cons b rest ih =>
    intro acc cur _
    cases hbe : b.beh with
    | ok v => rw [asyncGo_cons_ok hbe, syncGo_cons_ok hbe]
    | error m =>
      cases rest with
      | nil =>
        rw [asyncGo_cons_error hbe, syncGo_single_error hbe]
        rfl
      | cons c cs =>
        rw [asyncGo_cons_error hbe, ih _ (some m) (by simp),
          syncGo_cons_error hbe (by simp)]
        rfl

theorem promiseGo_cons_ok {α : Type} {b : Backend α} {rest : List (Backend α)}
    {acc : Option ChainedError} {v : α} (hbe : b.beh = Except.ok v) :
    promiseGo (b :: rest) acc = (UResult.ok v, [b.id]) := by
  simp only [promiseGo, hbe]

theorem promiseGo_single_error {α : Type} {b : Backend α} {acc : Option ChainedError}
    {m : String} (hbe : b.beh = Except.error m) :
    promiseGo [b] acc = (UResult.err (chainWith m acc), [b.id]) := by
  simp only [promiseGo, hbe, List.isEmpty_nil, if_true]

theorem promiseGo_cons_error {α : Type} {b : Backend α} {rest : List (Backend α)}
    {acc : Option ChainedError} {m : String} (hbe : b.beh = Except.error m) (hne : rest ≠ []) :
    promiseGo (b :: rest) acc =
      ((promiseGo rest (some (chainWith m acc))).1,
        b.id :: (promiseGo rest (some (chainWith m acc))).2) := by
  simp only [promiseGo, hbe]
  rw [if_neg]
  simp [hne]

theorem promiseGo_eq_syncGo {α : Type} :
    ∀ (L : List (Backend α)) (acc : Option ChainedError), promiseGo L acc = syncGo L acc := by
  intro L
  induction L with
  | nil => intro acc; rfl
  | cons b rest ih =>
    intro acc
    cases hbe : b.beh with
    | ok v => rw [promiseGo_cons_ok hbe, syncGo_cons_ok hbe]
    | error m =>
      cases rest with
      | nil => rw [promiseGo_single_error hbe, syncGo_single_error hbe]
      | cons c cs =>
        rw [promiseGo_cons_error hbe (by simp), syncGo_cons_error hbe (by simp), ih]

/-! ## C6 -/

/-- C6: every successful composite listing is lexicographically sorted by
name with no duplicate names, and the entry returned for a name is the
one reported by the lowest-priority (earliest-registered) readable
backend reporting it — `firstReport` in registration order. -/
theorem C6_readdir_lowest_priority_merge (fss : List RdBackend) (l : List DirEnt)
    (hok : readdirSync fss = UResult.ok l) :
    l.Pairwise (fun a b => strLe a.name b.name = true ∧ a.name ≠ b.name) ∧
    (∀ (n : String) (e : DirEnt), (e ∈ l ∧ e.name = n) ↔ firstReport fss n = some e) := by
  rw [readdirSync] at hok
  have hl := readdirSyncGo_ok fss.reverse none [] l hok
  have hnd : ((rdAccum fss.reverse []).map Prod.fst).Nodup :=
    keys_nodup_rdAccum fss.reverse [] (by simp)
  have hno : namesOk (rdAccum fss.reverse []) :=
    namesOk_rdAccum fss.reverse [] (by intro p hp; simp at hp)
  have hlook : ∀ n, mapLookup (rdAccum fss.reverse []) n = firstReport fss n := by
    intro n
    rw [mapLookup_rdAccum, show mapLookup [] n = none from rfl, Option.or_none,
      ← firstReport_reverse, List.reverse_reverse]
  constructor
  · rw [hl, sortedArrayFromReaddirResult]
    have hsorted : (((rdAccum fss.reverse []).map Prod.fst).insertionSort
        (fun a b => strLe a b = true)).Pairwise (fun a b => strLe a b = true) :=
      List.sorted_insertionSort _ _
    have hknodup : (((rdAccum fss.reverse []).map Prod.fst).insertionSort
        (fun a b => strLe a b = true)).Nodup :=
      (List.Perm.nodup_iff (List.perm_insertionSort _ _)).mpr hnd
    refine pairwise_filterMap_of _ ?_ (hsorted.and hknodup)
    intro a b x y hab hfa hfb
    obtain ⟨p, hp, hp1, hp2⟩ := mapLookup_eq_some_elim hfa
    obtain ⟨q, hq, hq1, hq2⟩ := mapLookup_eq_some_elim hfb
    have hx : x.name = a := by rw [← hp2, hno p hp, hp1]
    have hy : y.name = b := by rw [← hq2, hno q hq, hq1]
    rw [hx, hy]
    exact hab
  · intro n e
    constructor
    · rintro ⟨hel, hname⟩
      rw [hl] at hel
      obtain ⟨k, hk⟩ := mem_sortedArray.mp hel
      obtain ⟨p, hp, hp1, hp2⟩ := mapLookup_eq_some_elim hk
      have hek : e.name = k := by rw [← hp2, hno p hp, hp1]
      have hkn : k = n := by rw [← hek, hname]
      rw [← hlook n, ← hkn]
      exact hk
    · intro hfr
      have hk : mapLookup (rdAccum fss.reverse []) n = some e := by
        rw [hlook]
        exact hfr
      obtain ⟨p, hp, hp1, hp2⟩ := mapLookup_eq_some_elim hk
      have hname : e.name = n := by rw [← hp2, hno p hp, hp1]
      refine ⟨?_, hname⟩
      rw [hl]
      exact mem_sortedArray.mpr ⟨n, hk⟩

/-- C6 witness: the spec example — backend A (registered first, lowest
priority) reports `a`,`b`; backend B (registered second, higher priority)
reports `b`,`c`; the composite is `[a, b, c]` sorted, deduplicated, and
the `b` entry is A's (meta tag 1). -/
theorem C6_witness :
    List.Pairwise (fun a b => strLe a.name b.name = true ∧ a.name ≠ b.name)
      [DirEnt.mk "a" 1, DirEnt.mk "b" 1, DirEnt.mk "c" 2] ∧
    ((DirEnt.mk "b" 1 ∈ [DirEnt.mk "a" 1, DirEnt.mk "b" 1, DirEnt.mk "c" 2] ∧
        (DirEnt.mk "b" 1).name = "b") ↔
      firstReport [RdBackend.mk (Except.ok [DirEnt.mk "a" 1, DirEnt.mk "b" 1]) true,
        RdBackend.mk (Except.ok [DirEnt.mk "b" 2, DirEnt.mk "c" 2]) true] "b" =
          some (DirEnt.mk "b" 1)) := by
  have h := C6_readdir_lowest_priority_merge
    [RdBackend.mk (Except.ok [DirEnt.mk "a" 1, DirEnt.mk "b" 1]) true,
      RdBackend.mk (Except.ok [DirEnt.mk "b" 2, DirEnt.mk "c" 2]) true]
    [DirEnt.mk "a" 1, DirEnt.mk "b" 1, DirEnt.mk "c" 2] (by decide)
  exact ⟨h.1, h.2 "b" (DirEnt.mk "b" 1)⟩

/-! ## C7 -/

/-- C7 counterexample: the first-registered backend is readable-disabled
and the second contributes `a`; the callback `readdir` still surfaces a
`Readable disabled` error to the caller even though a backend contributed
data, contradicting the claimed iff. -/
theorem C7_counterexample_callback_error_after_contribution :
    readdirCb [RdBackend.mk (Except.ok []) false,
        RdBackend.mk (Except.ok [DirEnt.mk "a" 1]) true] =
      UResult.err (ChainedError.leaf (readableDisabledMsg 1)) := by
  decide

/-- C7 (amended): for the blocking and promise variants, an error is
surfaced only if no backend contributed any entry (every readable
successful backend reported an empty listing), and conversely a readable
backend with a non-empty successful listing forces a successful composite
result.  The callback variant violates this when the first-registered
entry is readable-disabled (see the counterexample). -/
theorem C7_aggregate_failure_suppression_amended (fss : List RdBackend) (e : ChainedError) :
    (readdirSync fss = UResult.err e →
      ∀ b ∈ fss, b.readable = true → ∀ es, b.beh = Except.ok es → es = []) ∧
    (readdirPromise fss = UResult.err e →
      ∀ b ∈ fss, b.readable = true → ∀ es, b.beh = Except.ok es → es = []) ∧
    ((∃ b ∈ fss, b.readable = true ∧ okEmpty b.beh = false ∧ isErr b.beh = false) →
      ∃ l, readdirSync fss = UResult.ok l) := by
  refine ⟨?_, ?_, ?_⟩
  · intro h b hb hbr es hbe
    rw [readdirSync] at h
    exact (readdirSyncGo_err_no_contribution fss.reverse none [] e h).2 b
      (List.mem_reverse.mpr hb) hbr es hbe
  · intro h b hb hbr es hbe
    rw [readdirPromise, readdirPromiseGo_eq_syncGo] at h
    exact (readdirSyncGo_err_no_contribution fss.reverse none [] e h).2 b
      (List.mem_reverse.mpr hb) hbr es hbe
  · rintro ⟨b, hb, hbr, hoke, hierr⟩
    rcases readdirSyncGo_shape fss.reverse none [] with ⟨l, hl⟩ | ⟨e2, he2⟩
    · exact ⟨l, by rw [readdirSync]; exact hl⟩
    · exfalso
      have hno := (readdirSyncGo_err_no_contribution fss.reverse none [] e2 he2).2 b
        (List.mem_reverse.mpr hb) hbr
      cases hbe : b.beh with
      | ok es =>
        have : es = [] := hno es hbe
        rw [hbe, this] at hoke
        simp [okEmpty] at hoke
      | error m =>
        rw [hbe] at hierr
        simp [isErr] at hierr

/-- C7 witness: a single contributing backend — the amended theorem
forces a successful composite, so no error value is surfaced. -/
theorem C7_witness :
    readdirSync [RdBackend.mk (Except.ok [DirEnt.mk "a" 1]) true] ≠
      UResult.err (ChainedError.leaf "boom") := by
  obtain ⟨l, hl⟩ := (C7_aggregate_failure_suppression_amended
    [RdBackend.mk (Except.ok [DirEnt.mk "a" 1]) true] (ChainedError.leaf "boom")).2.2
    ⟨RdBackend.mk (Except.ok [DirEnt.mk "a" 1]) true, by decide, by decide, by decide, by decide⟩
  rw [hl]
  intro h
  exact UResult.noConfusion h

/-! ## C8 -/

theorem openCbGo_eq_openSyncGo {α : Type} {flags : String} :
    ∀ (L : List (OpenBackend α)) (acc : Option ChainedError) (cur : Option String),
      L ≠ [] → openCbGo flags L acc cur = openSyncGo flags L (accAfter acc cur) := by
  intro L
  induction L with
  | nil => intro acc cur h; exact absurd rfl h
  | cons b rest ih =>
    intro acc cur _
    by_cases hb : skipEntry flags b.opts = true
    · rw [openCbGo_cons_skip hb, openSyncGo_cons_skip hb]
      cases rest with
      | nil => rfl
      | cons c cs => exact ih _ none (by simp)
    · have hb2 : skipEntry flags b.opts = false := by
        cases h2 : skipEntry flags b.opts
        · rfl
        · exact absurd h2 hb
      cases hbe : b.beh with
      | ok v => rw [openCbGo_cons_ok hb2 hbe, openSyncGo_cons_ok hb2 hbe]
      | error m =>
        cases rest with
        | nil =>
          rw [openCbGo_cons_error hb2 hbe, openSyncGo_single_error hb2 hbe]
          rfl
        | cons c cs =>
          rw [openCbGo_cons_error hb2 hbe, ih _ (some m) (by simp),
            openSyncGo_cons_error hb2 hbe (by simp)]
          rfl

theorem openSyncGo_skipOrFail_undef {flags : String} :
    ∀ (L : List (OpenBackend Nat)) (acc : Option ChainedError),
      (∀ b ∈ L, skipEntry flags b.opts = true ∨ isErr b.beh = true) →
      (∀ bl, L.getLast? = some bl → skipEntry flags bl.opts = true) →
      openSyncGo flags L acc =
        (UResult.undef, (L.filter fun b => !skipEntry flags b.opts).map OpenBackend.id) := by
  intro L
  induction L with
  | nil => intro acc _ _; rfl
  | cons b rest ih =>
    intro acc hsf hlast
    cases rest with
    | nil =>
      have hb : skipEntry flags b.opts = true := hlast b (by simp)
      rw [openSyncGo_cons_skip hb, List.filter_cons_of_neg (by simp [hb])]
      rfl
    | cons c cs =>
      have hlast2 : ∀ bl, (c :: cs).getLast? = some bl → skipEntry flags bl.opts = true := by
        intro bl hbl
        exact hlast bl (by rw [List.getLast?_cons_cons]; exact hbl)
      have hsf2 : ∀ b2 ∈ c :: cs, skipEntry flags b2.opts = true ∨ isErr b2.beh = true :=
        fun b2 hb2 => hsf b2 (List.mem_cons_of_mem _ hb2)
      by_cases hb : skipEntry flags b.opts = true
      · have hfb : List.filter (fun x => !skipEntry flags x.opts) (b :: c :: cs) =
            List.filter (fun x => !skipEntry flags x.opts) (c :: cs) :=
          List.filter_cons_of_neg (by simp [hb])
        rw [openSyncGo_cons_skip hb, hfb]
        exact ih acc hsf2 hlast2
      · have hb2 : skipEntry flags b.opts = false := by
          cases h2 : skipEntry flags b.opts
          · rfl
          · exact absurd h2 hb
        have hberr : isErr b.beh = true := by
          rcases hsf b (by simp) with hsk | herr
          · rw [hb2] at hsk
            exact absurd hsk (by simp)
          · exact herr
        cases hbe : b.beh with
        | ok v => rw [hbe] at hberr; simp [isErr] at hberr
        | error m =>
          have hfb : List.filter (fun x => !skipEntry flags x.opts) (b :: c :: cs) =
              b :: List.filter (fun x => !skipEntry flags x.opts) (c :: cs) :=
            List.filter_cons_of_pos (by simp [hb2])
          rw [openSyncGo_cons_error hb2 hbe (by simp),
            ih (some (chainWith m acc)) hsf2 hlast2, hfb]
          rfl

/-- C3 (amended): on a non-empty registry where every entry is filtered
out or fails, all three generic single-target dispatchers surface the
same error, whose `prev` chain lists exactly the attempted backends'
messages, one node per attempt, in registration order (the reverse of
attempt order), with the trace giving the attempt order.  Callback `open`
and `openSync` agree on every non-empty registry; for them the same chain
property holds provided the first-registered entry passes the access-mode
filter, and when the first-registered entry is instead filtered out, the
accumulated errors are discarded and the call yields `undefined` even
though the eligible entries were attempted. -/
theorem C3_error_chain_amended :
    (∀ (p : Nat × String) (ps : List (Nat × String)),
      syncMethod ((p :: ps).map failB) =
        (UResult.err (chainOfMsgs p.2 (ps.map Prod.snd)), ((p :: ps).map Prod.fst).reverse) ∧
      asyncMethod ((p :: ps).map failB) = syncMethod ((p :: ps).map failB) ∧
      promiseMethod ((p :: ps).map failB) = syncMethod ((p :: ps).map failB) ∧
      (chainOfMsgs p.2 (ps.map Prod.snd)).chainLength = (p :: ps).length) ∧
    (∀ (fss : List (OpenBackend Nat)) (flags : String), fss ≠ [] →
      openCb fss flags = openSync fss flags) ∧
    (∀ (b0 : OpenBackend Nat) (rest : List (OpenBackend Nat)) (flags : String),
      (∀ b ∈ b0 :: rest, skipEntry flags b.opts = true ∨ isErr b.beh = true) →
      skipEntry flags b0.opts = false →
      ∃ e, openSync (b0 :: rest) flags =
          (UResult.err e,
            (((b0 :: rest).filter fun b => !skipEntry flags b.opts).map OpenBackend.id).reverse) ∧
        e.msgs = ((b0 :: rest).filter fun b => !skipEntry flags b.opts).filterMap
            (fun b => errMsg b.beh) ∧
        e.chainLength = ((b0 :: rest).filter fun b => !skipEntry flags b.opts).length) ∧
    (∀ (b0 : OpenBackend Nat) (rest : List (OpenBackend Nat)) (flags : String),
      (∀ b ∈ b0 :: rest, skipEntry flags b.opts = true ∨ isErr b.beh = true) →
      skipEntry flags b0.opts = true →
      openSync (b0 :: rest) flags =
        (UResult.undef,
          (((b0 :: rest).filter fun b => !skipEntry flags b.opts).map OpenBackend.id).reverse)) := by
  refine ⟨?_, ?_, ?_, ?_⟩
  · intro p ps
    have hne : ((p :: ps).map failB).isEmpty = false := by simp
    have hrevne : ((p :: ps).map failB).reverse ≠ [] := by simp
    obtain ⟨e, he, hm⟩ := syncGo_fail_all ((p :: ps).reverse) none (by simp)
    have hmsgs : e.msgs = p.2 :: ps.map Prod.snd := by
      rw [hm, List.map_reverse, List.reverse_reverse]
      simp [optMsgs]
    have hre : e = chainOfMsgs p.2 (ps.map Prod.snd) := eq_chainOfMsgs e _ _ hmsgs
    have hsync : syncMethod ((p :: ps).map failB) =
        (UResult.err (chainOfMsgs p.2 (ps.map Prod.snd)), ((p :: ps).map Prod.fst).reverse) := by
      rw [syncMethod, hne]
      simp only [Bool.false_eq_true, if_false]
      rw [← List.map_reverse, he, hre]
      rw [List.map_reverse]
    refine ⟨hsync, ?_, ?_, ?_⟩
    · rw [asyncMethod, syncMethod, hne]
      simp only [Bool.false_eq_true, if_false]
      rw [asyncGo_eq_syncGo _ none none hrevne]
      rfl
    · rw [promiseMethod, syncMethod, hne]
      simp only [Bool.false_eq_true, if_false]
      rw [promiseGo_eq_syncGo]
    · rw [ChainedError.chainLength, chainOfMsgs_msgs]
      simp
  · intro fss flags hne
    have hrevne : fss.reverse ≠ [] := by simp [hne]
    rw [openCb_ne_nil hne, openSync, openCbGo_eq_openSyncGo fss.reverse none none hrevne]
    rfl
  · intro b0 rest flags hfail hb0
    have hlast : ∀ bl, (b0 :: rest).reverse.getLast? = some bl →
        skipEntry flags bl.opts = false := by
      intro bl hbl
      rw [List.getLast?_reverse] at hbl
      simp at hbl
      rw [← hbl]
      exact hb0
    have hfail2 : ∀ b ∈ (b0 :: rest).reverse,
        skipEntry flags b.opts = true ∨ isErr b.beh = true := by
      intro b hb
      exact hfail b (List.mem_reverse.mp hb)
    obtain ⟨e, he, hm⟩ := openSyncGo_fail_all ((b0 :: rest).reverse) none (by simp) hfail2 hlast
    have hmsgs : e.msgs = ((b0 :: rest).filter fun b => !skipEntry flags b.opts).filterMap
        (fun b => errMsg b.beh) := by
      rw [hm, List.filter_reverse, List.filterMap_reverse, List.reverse_reverse]
      simp [optMsgs]
    refine ⟨e, ?_, hmsgs, ?_⟩
    · rw [openSync, he, List.filter_reverse, List.map_reverse]
    · rw [ChainedError.chainLength, hmsgs]
      refine filterMap_errMsg_length ?_
      intro b hb
      have h2 := List.mem_filter.mp hb
      rcases hfail b h2.1 with hsk | herr
      · rw [hsk] at h2
        simp at h2
      · exact herr
  · intro b0 rest flags hfail hb0
    have hlast : ∀ bl, (b0 :: rest).reverse.getLast? = some bl →
        skipEntry flags bl.opts = true := by
      intro bl hbl
      rw [List.getLast?_reverse] at hbl
      simp at hbl
      rw [← hbl]
      exact hb0
    have hfail2 : ∀ b ∈ (b0 :: rest).reverse,
        skipEntry flags b.opts = true ∨ isErr b.beh = true := by
      intro b hb
      exact hfail b (List.mem_reverse.mp hb)
    rw [openSync, openSyncGo_skipOrFail_undef ((b0 :: rest).reverse) none hfail2 hlast,
      List.filter_reverse, List.map_reverse]

/-- C3 witness: a concrete registry where every entry fails and the
first-registered entry is eligible — the amended theorem computes the
surfaced chain, and the callback form agrees with the blocking form. -/
theorem C3_witness :
    (openSync ([⟨0, Except.error "a", ⟨true, true⟩⟩, ⟨1, Except.error "b", ⟨true, true⟩⟩] :
        List (OpenBackend Nat)) "r").1 =
      UResult.err (ChainedError.cons "a" (ChainedError.leaf "b")) ∧
    openCb ([⟨0, Except.error "a", ⟨true, true⟩⟩, ⟨1, Except.error "b", ⟨true, true⟩⟩] :
        List (OpenBackend Nat)) "r" =
      openSync ([⟨0, Except.error "a", ⟨true, true⟩⟩, ⟨1, Except.error "b", ⟨true, true⟩⟩] :
        List (OpenBackend Nat)) "r" := by
  constructor
  · obtain ⟨e, he, hm, _⟩ := C3_error_chain_amended.2.2.1
      ⟨0, Except.error "a", ⟨true, true⟩⟩ [⟨1, Except.error "b", ⟨true, true⟩⟩] "r"
      (by decide) (by decide)
    have hmsgs : e.msgs = ["a", "b"] := by
      rw [hm]
      decide
    have he2 : e = chainOfMsgs "a" ["b"] := eq_chainOfMsgs e _ _ hmsgs
    rw [he, he2]
    rfl
  · exact C3_error_chain_amended.2.1 _ "r" (by decide)

/-! ## C9 -/

/-- The stream `createReadStream` obtains from one entry, if any: the
entry must be readable and its step must succeed. -/
def rsSucceeds (b : StreamBackend) : Option Nat :=
  if b.readable == false then none
  else
    match rsStep b with
    | .ok s => some s
    | .error _ => none

/-- Same for `createWriteStream` (no existence check). -/
def wsSucceeds (b : StreamBackend) : Option Nat :=
  if b.writable == false then none
  else if b.hasCreate = false then none
  else
    match b.create with
    | .ok (some s) => some s
    | _ => none

theorem createReadStreamGo_cons_skip {b : StreamBackend} {rest : List StreamBackend}
    {last : Option String} (hr : b.readable = false) :
    createReadStreamGo (b :: rest) last = createReadStreamGo rest last := by
  simp [createReadStreamGo, hr]

theorem createReadStreamGo_cons_ok {b : StreamBackend} {rest : List StreamBackend}
    {last : Option String} {s : Nat} (hr : b.readable = true) (hs : rsStep b = Except.ok s) :
    createReadStreamGo (b :: rest) last = (Except.ok s, [b.id]) := by
  simp [createReadStreamGo, hr, hs]

theorem createReadStreamGo_cons_error {b : StreamBackend} {rest : List StreamBackend}
    {last : Option String} {m : String} (hr : b.readable = true) (hs : rsStep b = Except.error m) :
    createReadStreamGo (b :: rest) last =
      ((createReadStreamGo rest (some m)).1, b.id :: (createReadStreamGo rest (some m)).2) := by
  simp [createReadStreamGo, hr, hs]

theorem rsSucceeds_some_elim {b : StreamBackend} {s : Nat} (h : rsSucceeds b = some s) :
    b.readable = true ∧ rsStep b = Except.ok s := by
  rw [rsSucceeds] at h
  cases hr : b.readable with
  | false => rw [hr] at h; simp at h
  | true =>
    rw [hr] at h
    simp only [show ((true == false) = true) = False by simp, if_false] at h
    cases hs : rsStep b with
    | ok s2 =>
      rw [hs] at h
      simp at h
      subst h
      exact ⟨rfl, rfl⟩
    | error m => rw [hs] at h; exact Option.noConfusion h

theorem rsSucceeds_none_elim {b : StreamBackend} (h : rsSucceeds b = none) :
    b.readable = false ∨ (b.readable = true ∧ ∃ m, rsStep b = Except.error m) := by
  rw [rsSucceeds] at h
  cases hr : b.readable with
  | false => exact Or.inl rfl
  | true =>
    rw [hr] at h
    simp only [show ((true == false) = true) = False by simp, if_false] at h
    cases hs : rsStep b with
    | ok s2 => rw [hs] at h; exact Option.noConfusion h
    | error m => exact Or.inr ⟨rfl, m, rfl⟩

theorem createReadStreamGo_first_success :
    ∀ (pre : List StreamBackend) (b : StreamBackend) (post : List StreamBackend)
      (s : Nat) (last : Option String),
      (∀ p ∈ pre, rsSucceeds p = none) → rsSucceeds b = some s →
      createReadStreamGo (pre ++ b :: post) last =
        (Except.ok s, (pre.filter (fun p => p.readable)).map StreamBackend.id ++ [b.id]) := by
  intro pre
  induction pre with
  | nil =>
    intro b post s last _ hb
    obtain ⟨hr, hs⟩ := rsSucceeds_some_elim hb
    rw [List.nil_append, createReadStreamGo_cons_ok hr hs]
    simp
  | cons p pre' ih =>
    intro b post s last hpre hb
    have hprerest : ∀ q ∈ pre', rsSucceeds q = none := fun q hq =>
      hpre q (List.mem_cons_of_mem _ hq)
    rcases rsSucceeds_none_elim (hpre p (by simp)) with hr | ⟨hr, m, hm⟩
    · rw [List.cons_append, createReadStreamGo_cons_skip hr,
        ih b post s last hprerest hb, List.filter_cons_of_neg (by simp [hr])]
    · rw [List.cons_append, createReadStreamGo_cons_error hr hm,
        ih b post s (some m) hprerest hb, List.filter_cons_of_pos (by simp [hr])]
      simp

theorem createWriteStreamGo_cons_skip {b : StreamBackend} {rest : List StreamBackend}
    {last : Option String} {optFs : Option Nat} (hw : b.writable = false) :
    createWriteStreamGo (b :: rest) last optFs = createWriteStreamGo rest last optFs := by
  simp [createWriteStreamGo, hw]

theorem createWriteStreamGo_cons_noCreate {b : StreamBackend} {rest : List StreamBackend}
    {last : Option String} {optFs : Option Nat}
    (hw : b.writable = true) (hc : b.hasCreate = false) :
    createWriteStreamGo (b :: rest) last optFs =
      ((createWriteStreamGo rest (some "Method not supported: createWriteStream") optFs).1,
        (createWriteStreamGo rest (some "Method not supported: createWriteStream") optFs).2.1,
        b.id ::
          (createWriteStreamGo rest (some "Method not supported: createWriteStream") optFs).2.2) := by
  simp [createWriteStreamGo, hw, hc]

theorem createWriteStreamGo_cons_success {b : StreamBackend} {rest : List StreamBackend}
    {last : Option String} {optFs : Option Nat} {s : Nat}
    (hw : b.writable = true) (hc : b.hasCreate = true) (hcr : b.create = Except.ok (some s)) :
    createWriteStreamGo (b :: rest) last optFs = (Except.ok s, some b.id, [b.id]) := by
  simp [createWriteStreamGo, hw, hc, hcr]

theorem createWriteStreamGo_cons_nullStream {b : StreamBackend} {rest : List StreamBackend}
    {last : Option String} {optFs : Option Nat}
    (hw : b.writable = true) (hc : b.hasCreate = true) (hcr : b.create = Except.ok none) :
    createWriteStreamGo (b :: rest) last optFs =
      ((createWriteStreamGo rest (some "no valid stream") (some b.id)).1,
        (createWriteStreamGo rest (some "no valid stream") (some b.id)).2.1,
        b.id :: (createWriteStreamGo rest (some "no valid stream") (some b.id)).2.2) := by
  simp [createWriteStreamGo, hw, hc, hcr]

theorem createWriteStreamGo_cons_throw {b : StreamBackend} {rest : List StreamBackend}
    {last : Option String} {optFs : Option Nat} {m : String}
    (hw : b.writable = true) (hc : b.hasCreate = true) (hcr : b.create = Except.error m) :
    createWriteStreamGo (b :: rest) last optFs =
      ((createWriteStreamGo rest (some m) (some b.id)).1,
        (createWriteStreamGo rest (some m) (some b.id)).2.1,
        b.id :: (createWriteStreamGo rest (some m) (some b.id)).2.2) := by
  simp [createWriteStreamGo, hw, hc, hcr]

theorem wsSucceeds_some_elim {b : StreamBackend} {s : Nat} (h : wsSucceeds b = some s) :
    b.writable = true ∧ b.hasCreate = true ∧ b.create = Except.ok (some s) := by
  rw [wsSucceeds] at h
  cases hw : b.writable with
  | false => rw [hw] at h; simp at h
  | true =>
    rw [hw] at h
    simp only [show ((true == false) = true) = False by simp, if_false] at h
    cases hc : b.hasCreate with
    | false => rw [hc] at h; simp at h
    | true =>
      rw [hc] at h
      simp only [Bool.true_eq_false, if_false] at h
      cases hcr : b.create with
      | error m => rw [hcr] at h; simp at h
      | ok os =>
        cases os with
        | none => rw [hcr] at h; simp at h
        | some s2 =>
          rw [hcr] at h
          simp at h
          subst h
          exact ⟨rfl, rfl, rfl⟩

theorem wsSucceeds_none_elim {b : StreamBackend} (h : wsSucceeds b = none) :
    b.writable = false ∨
    (b.writable = true ∧ b.hasCreate = false) ∨
    (b.writable = true ∧ b.hasCreate = true ∧
      (b.create = Except.ok none ∨ ∃ m, b.create = Except.error m)) := by
  rw [wsSucceeds] at h
  cases hw : b.writable with
  | false => exact Or.inl rfl
  | true =>
    cases hc : b.hasCreate with
    | false => exact Or.inr (Or.inl ⟨rfl, rfl⟩)
    | true =>
      rw [hw, hc] at h
      simp only [show ((true == false) = true) = False by simp, if_false,
        Bool.true_eq_false] at h
      cases hcr : b.create with
      | error m => exact Or.inr (Or.inr ⟨rfl, rfl, Or.inr ⟨m, rfl⟩⟩)
      | ok os =>
        cases os with
        | none => exact Or.inr (Or.inr ⟨rfl, rfl, Or.inl rfl⟩)
        | some s2 => rw [hcr] at h; simp at h

theorem createWriteStreamGo_first_success :
    ∀ (pre : List StreamBackend) (b : StreamBackend) (post : List StreamBackend)
      (s : Nat) (last : Option String) (optFs : Option Nat),
      (∀ p ∈ pre, wsSucceeds p = none) → wsSucceeds b = some s →
      (createWriteStreamGo (pre ++ b :: post) last optFs).1 = Except.ok s ∧
      (createWriteStreamGo (pre ++ b :: post) last optFs).2.2 =
        (pre.filter (fun p => p.writable)).map StreamBackend.id ++ [b.id] := by
  intro pre
  induction pre with
  | nil =>
    intro b post s last optFs _ hb
    obtain ⟨hw, hc, hcr⟩ := wsSucceeds_some_elim hb
    rw [List.nil_append, createWriteStreamGo_cons_success hw hc hcr]
    simp
  | cons p pre' ih =>
    intro b post s last optFs hpre hb
    have hprerest : ∀ q ∈ pre', wsSucceeds q = none := fun q hq =>
      hpre q (List.mem_cons_of_mem _ hq)
    rcases wsSucceeds_none_elim (hpre p (by simp)) with hw | ⟨hw, hc⟩ | ⟨hw, hc, hcr⟩
    · rw [List.cons_append, createWriteStreamGo_cons_skip hw,
        List.filter_cons_of_neg (by simp [hw])]
      exact ih b post s last optFs hprerest hb
    · rw [List.cons_append, createWriteStreamGo_cons_noCreate hw hc,
        List.filter_cons_of_pos (by simp [hw])]
      obtain ⟨h1, h2⟩ := ih b post s
        (some "Method not supported: createWriteStream") optFs hprerest hb
      exact ⟨h1, by rw [h2]; simp⟩
    · rcases hcr with hcr | ⟨m, hcr⟩
      · rw [List.cons_append, createWriteStreamGo_cons_nullStream hw hc hcr,
          List.filter_cons_of_pos (by simp [hw])]
        obtain ⟨h1, h2⟩ := ih b post s (some "no valid stream") (some p.id) hprerest hb
        exact ⟨h1, by rw [h2]; simp⟩
      · rw [List.cons_append, createWriteStreamGo_cons_throw hw hc hcr,
          List.filter_cons_of_pos (by simp [hw])]
        obtain ⟨h1, h2⟩ := ih b post s (some m) (some p.id) hprerest hb
        exact ⟨h1, by rw [h2]; simp⟩

/-- C9 counterexample: two fully-capable backends each holding the file
and producing distinct streams.  `createReadStream` (and
`createWriteStream`) return the FIRST-registered, lowest-priority
backend's stream — the loop `for (const [fs] of this.fss)` runs in
registration order, not priority order. -/
theorem C9_counterexample_lowest_priority_first :
    (createReadStream [⟨0, true, true, true, some true, Except.ok (some 10)⟩,
        ⟨1, true, true, true, some true, Except.ok (some 21)⟩]).1 = Except.ok 10 ∧
    (createReadStream [⟨0, true, true, true, some true, Except.ok (some 10)⟩,
        ⟨1, true, true, true, some true, Except.ok (some 21)⟩]).1 ≠ Except.ok 21 ∧
    (createWriteStream [⟨0, true, true, true, some true, Except.ok (some 10)⟩,
        ⟨1, true, true, true, some true, Except.ok (some 21)⟩]).1 = Except.ok 10 ∧
    (createWriteStream [⟨0, true, true, true, some true, Except.ok (some 10)⟩,
        ⟨1, true, true, true, some true, Except.ok (some 21)⟩]).1 ≠ Except.ok 21 := by
  refine ⟨by decide, by decide, by decide, by decide⟩

/-- C9 (amended): `createReadStream` tries the readable entries (and
`createWriteStream` the writable entries) in REGISTRATION order — the
first-registered, lowest-priority entry first — stopping at the first
entry that passes the existence check (when available) and yields a
truthy stream; no entry after the success is processed, as the trace
shows. -/
theorem C9_stream_order_amended (pre post : List StreamBackend) (b : StreamBackend) (s : Nat) :
    ((∀ p ∈ pre, rsSucceeds p = none) → rsSucceeds b = some s →
      createReadStream (pre ++ b :: post) =
        (Except.ok s, (pre.filter (fun p => p.readable)).map StreamBackend.id ++ [b.id])) ∧
    ((∀ p ∈ pre, wsSucceeds p = none) → wsSucceeds b = some s →
      (createWriteStream (pre ++ b :: post)).1 = Except.ok s ∧
      (createWriteStream (pre ++ b :: post)).2.2 =
        (pre.filter (fun p => p.writable)).map StreamBackend.id ++ [b.id]) := by
  constructor
  · intro hpre hb
    exact createReadStreamGo_first_success pre b post s none hpre hb
  · intro hpre hb
    exact createWriteStreamGo_first_success pre b post s none none hpre hb

/-- C9 witness: a low-priority entry that fails its existence check,
followed by a succeeding entry; the amended theorem computes the result
and the trace. -/
theorem C9_witness :
    createReadStream [⟨0, true, true, true, some false, Except.ok (some 10)⟩,
        ⟨1, true, true, true, some true, Except.ok (some 21)⟩] =
      (Except.ok 21, [0, 1]) :=
  (C9_stream_order_amended [⟨0, true, true, true, some false, Except.ok (some 10)⟩] []
    ⟨1, true, true, true, some true, Except.ok (some 21)⟩ 21).1 (by decide) (by decide)

/-! ## C10 -/

theorem createWriteStreamGo_optFs :
    ∀ (fss : List StreamBackend) (last : Option String) (optFs : Option Nat),
      (createWriteStreamGo fss last optFs).2.1 = ((wsDelegated fss).getLast?).or optFs := by
  intro fss
  induction fss with
  | nil => intro last optFs; rfl
  | cons b rest ih =>
    intro last optFs
    by_cases hw : b.writable = false
    · have hd : wsDelegated (b :: rest) = wsDelegated rest := by simp [wsDelegated, hw]
      rw [createWriteStreamGo_cons_skip hw, hd]
      exact ih last optFs
    · have hw' : b.writable = true := by
        cases h2 : b.writable
        · exact absurd h2 hw
        · rfl
      by_cases hc : b.hasCreate = false
      · have hd : wsDelegated (b :: rest) = wsDelegated rest := by simp [wsDelegated, hw', hc]
        rw [createWriteStreamGo_cons_noCreate hw' hc, hd]
        exact ih _ optFs
      · have hc' : b.hasCreate = true := by
          cases h2 : b.hasCreate
          · exact absurd h2 hc
          · rfl
        cases hcr : b.create with
        | error m =>
          have hd : wsDelegated (b :: rest) = b.id :: wsDelegated rest := by
            simp [wsDelegated, hw', hc', hcr]
          rw [createWriteStreamGo_cons_throw hw' hc' hcr, hd]
          show (createWriteStreamGo rest (some m) (some b.id)).2.1 = _
          rw [ih _ (some b.id), getLast?_cons_or, Option.or_assoc, Option.or_some]
        | ok os =>
          cases os with
          | none =>
            have hd : wsDelegated (b :: rest) = b.id :: wsDelegated rest := by
              simp [wsDelegated, hw', hc', hcr]
            rw [createWriteStreamGo_cons_nullStream hw' hc' hcr, hd]
            show (createWriteStreamGo rest (some "no valid stream") (some b.id)).2.1 = _
            rw [ih _ (some b.id), getLast?_cons_or, Option.or_assoc, Option.or_some]
          | some s =>
            have hd : wsDelegated (b :: rest) = [b.id] := by
              simp [wsDelegated, hw', hc', hcr]
            rw [createWriteStreamGo_cons_success hw' hc' hcr, hd]
            rfl

theorem createWriteStreamGo_trace_delegated :
    ∀ (fss : List StreamBackend) (last : Option String) (optFs : Option Nat),
      (∀ b ∈ fss, b.hasCreate = true) →
      (createWriteStreamGo fss last optFs).2.2 = wsDelegated fss := by
  intro fss
  induction fss with
  | nil => intro last optFs _; rfl
  | cons b rest ih =>
    intro last optFs hall
    have hb : b.hasCreate = true := hall b (by simp)
    have hrest : ∀ b2 ∈ rest, b2.hasCreate = true := fun b2 hb2 =>
      hall b2 (List.mem_cons_of_mem _ hb2)
    by_cases hw : b.writable = false
    · have hd : wsDelegated (b :: rest) = wsDelegated rest := by simp [wsDelegated, hw]
      rw [createWriteStreamGo_cons_skip hw, hd]
      exact ih last optFs hrest
    · have hw' : b.writable = true := by
        cases h2 : b.writable
        · exact absurd h2 hw
        · rfl
      cases hcr : b.create with
      | error m =>
        have hd : wsDelegated (b :: rest) = b.id :: wsDelegated rest := by
          simp [wsDelegated, hw', hb, hcr]
        rw [createWriteStreamGo_cons_throw hw' hb hcr, hd]
        show b.id :: (createWriteStreamGo rest (some m) (some b.id)).2.2 = _
        rw [ih _ (some b.id) hrest]
      | ok os =>
        cases os with
        | none =>
          have hd : wsDelegated (b :: rest) = b.id :: wsDelegated rest := by
            simp [wsDelegated, hw', hb, hcr]
          rw [createWriteStreamGo_cons_nullStream hw' hb hcr, hd]
          show b.id :: (createWriteStreamGo rest (some "no valid stream") (some b.id)).2.2 = _
          rw [ih _ (some b.id) hrest]
        | some s =>
          have hd : wsDelegated (b :: rest) = [b.id] := by
            simp [wsDelegated, hw', hb, hcr]
          rw [createWriteStreamGo_cons_success hw' hb hcr, hd]

/-- C10: `createWriteStream` mutates the caller-supplied options object,
assigning each delegated-to backend to `options.fs` just before calling
its method; after the call, `options.fs` holds the last delegated
backend — and, when every entry has the method, exactly the last backend
tried (the last id of the processing trace). -/
theorem C10_options_fs_mutation (fss : List StreamBackend) :
    (createWriteStream fss).2.1 = (wsDelegated fss).getLast? ∧
    ((∀ b ∈ fss, b.hasCreate = true) →
      (createWriteStream fss).2.1 = (createWriteStream fss).2.2.getLast?) := by
  constructor
  · rw [createWriteStream, createWriteStreamGo_optFs, Option.or_none]
  · intro hall
    rw [createWriteStream, createWriteStreamGo_optFs, Option.or_none,
      createWriteStreamGo_trace_delegated fss none none hall]

/-- C10 witness: two writable backends where the first fails — after the
call the options object's `fs` field holds the second, last-tried
backend. -/
theorem C10_witness :
    (createWriteStream [⟨0, true, true, true, none, Except.error "x"⟩,
        ⟨1, true, true, true, none, Except.ok (some 21)⟩]).2.1 =
      (createWriteStream [⟨0, true, true, true, none, Except.error "x"⟩,
        ⟨1, true, true, true, none, Except.ok (some 21)⟩]).2.2.getLast? :=
  (C10_options_fs_mutation [⟨0, true, true, true, none, Except.error "x"⟩,
    ⟨1, true, true, true, none, Except.ok (some 21)⟩]).2 (by decide)

end UnionFS
